import Mathlib

/-!
# github-meta-analytics: `cmd/main.go`

A shallow embedding of the single source file of the repository and the
properties of its four stages: the URL parser (`ParseUrl`), the statistics
poller (the `for` loop of `main`), the affiliation aggregator
(`ParseCompanyStats`) and the report printer (the tail of `main`).

Conventions of the embedding

* A Go `string` is a Lean `String`.  The only bytes the program inspects are
  `'/'` and `'@'`; both are ASCII, so on UTF-8 text the byte-wise operations of
  Go (`len(s) == 0`, `s[0] == '@'`, `s[1:]`, `strings.Split(s, "/")`) coincide
  with the character-wise ones used here.
* A Go `int` is a 64-bit two's complement integer: `GoInt` is the subtype of
  `Int` in that range and `GoInt.add` wraps around.
* A pointer is an `Option`; dereferencing `nil` is a run-time panic.
* `log.Fatal`/`log.Fatalf` end the process with exit status 1, a panic ends it
  with exit status 2.
* Calls into the forge (`ListContributorsStats`, `Users.Get`) are parameters.
-/

namespace GithubMetaAnalytics

/-! ## Go integers -/

/-- Two's complement reduction of an integer to 64 bits. -/
def wrapInt (x : Int) : Int :=
  (x + 9223372036854775808) % 18446744073709551616 - 9223372036854775808

/-- Range of Go's `int` on a 64-bit target. -/
def InInt64 (x : Int) : Prop :=
  -9223372036854775808 ≤ x ∧ x ≤ 9223372036854775807

instance (x : Int) : Decidable (InInt64 x) := by
  unfold InInt64; infer_instance

/-- Go's `int`. -/
def GoInt : Type := { x : Int // InInt64 x }

instance : DecidableEq GoInt := by
  unfold GoInt; infer_instance

/-- Conversion of a mathematical integer to `int` (truncating). -/
def GoInt.ofInt (x : Int) : GoInt :=
  ⟨wrapInt x, by unfold InInt64 wrapInt; omega⟩

/-- Addition of Go: `a + b` with wrap-around on overflow. -/
def GoInt.add (a b : GoInt) : GoInt := GoInt.ofInt (a.val + b.val)

/-- Sum of a list of `int`s as a Go loop `for ... { s += x }` computes it. -/
def goSum (xs : List GoInt) : GoInt := xs.foldl GoInt.add (GoInt.ofInt 0)

/-- Exact (unbounded) sum of a list of `int`s. -/
def intSum (xs : List GoInt) : Int := (xs.map Subtype.val).sum

/-! ## Go strings -/

/-- Tokens of `strings.Split(s, "/")` on the characters of `s`: the pieces
between the occurrences of the separator, one more than there are separators. -/
def splitChars (sep : Char) : List Char → List (List Char)
  | [] => [[]]
  | c :: cs =>
    if c = sep then [] :: splitChars sep cs
    else
      match splitChars sep cs with
      | [] => [[c]]
      | t :: ts => (c :: t) :: ts

/-- Tokens of `strings.Split(s, "/")`. -/
def Split (s : String) : List String := (splitChars '/' s.data).map String.mk

/-! ## Process outcomes -/

/-- How a Go computation that does not return normally ends. -/
inductive Abort where
  /-- Outcome of `log.Fatal`/`log.Fatalf`: the message is logged, then `os.Exit(1)`. -/
  | fatal (msg : String)
  /-- Outcome of a run-time panic (index out of range, nil pointer dereference). -/
  | panic
  deriving DecidableEq

instance instDecidableEqExcept {ε α : Type} [DecidableEq ε] [DecidableEq α] :
    DecidableEq (Except ε α)
  | .ok a, .ok b =>
    if h : a = b then isTrue (by rw [h]) else isFalse (fun h2 => h (Except.ok.inj h2))
  | .error a, .error b =>
    if h : a = b then isTrue (by rw [h]) else isFalse (fun h2 => h (Except.error.inj h2))
  | .ok _, .error _ => isFalse (fun h => Except.noConfusion h)
  | .error _, .ok _ => isFalse (fun h => Except.noConfusion h)

/-- Indexing `tokens[i]` of a Go slice: panics when out of range. -/
def index (tokens : List String) (i : Nat) : Except Abort String :=
  match tokens.get? i with
  | some t => .ok t
  | none => .error Abort.panic

/-! ## URL parser -/

/-- Go function `ParseUrl`. -/
def ParseUrl (url : String) : Except Abort (String × String) :=
  let tokens := Split url
  if tokens.length = 3 then do
    let a ← index tokens 1
    let r ← index tokens 2
    pure (a, r)
  else if tokens.length = 5 then do
    let a ← index tokens 3
    let r ← index tokens 4
    pure (a, r)
  else
    .error (Abort.fatal "invalid url")

/-! ## Data model -/

/-- Struct `github.Contributor`.  The program reads `Login` (through the nil-safe
accessor `GetLogin`) and copies the struct as a whole; `ID` stands for the
fields it never inspects. -/
structure Contributor where
  Login : Option String
  ID : Option Int
  deriving DecidableEq

/-- Struct `github.ContributorStats` (`Weeks` is never read and is left out).
Both fields are pointers. -/
structure ContributorStats where
  Author : Option Contributor
  Total : Option GoInt

/-- Struct `github.User`: the field the program reads. -/
structure User where
  Company : Option String
  deriving DecidableEq

/-- Values of Go's `error` interface that the forge client hands back:
`*github.AcceptedError` (HTTP 202, "computation scheduled, not ready") or
anything else. -/
inductive Error where
  | accepted
  | other (msg : String)
  deriving DecidableEq

/-- Method `Error()` of an `error`. -/
def Error.msg : Error → String
  | .accepted => "job scheduled on GitHub side; try again later"
  | .other m => m

/-- Struct `CompanyStats`. -/
structure CompanyStats where
  Name : String
  Contributors : List Contributor
  Contributions : GoInt
  deriving DecidableEq

/-- Accessor `(*ContributorStats).GetAuthor`: nil-safe. -/
def GetAuthor (stat : Option ContributorStats) : Option Contributor :=
  match stat with
  | none => none
  | some s => s.Author

/-- Accessor `(*Contributor).GetLogin`: nil-safe, `""` when absent. -/
def GetLogin (contributor : Option Contributor) : String :=
  match contributor with
  | none => ""
  | some c =>
    match c.Login with
    | none => ""
    | some l => l

/-- Accessor `(*User).GetCompany`: `""` when the field is absent. -/
def GetCompany (user : User) : String :=
  match user.Company with
  | none => ""
  | some c => c

/-- Dereference `*contributor`. -/
def derefContributor (contributor : Option Contributor) : Except Abort Contributor :=
  match contributor with
  | none => .error Abort.panic
  | some c => .ok c

/-- Dereference `*stat.Total`: panics when `stat` or `stat.Total` is nil. -/
def derefTotal (stat : Option ContributorStats) : Except Abort GoInt :=
  match stat with
  | none => .error Abort.panic
  | some s =>
    match s.Total with
    | none => .error Abort.panic
    | some t => .ok t

/-! ## Go maps

A `map[string]CompanyStats` is an association list with at most one entry per
key.  The position of an entry carries no meaning: `range` over a Go map
visits the entries in an unspecified order (see `Env.rangeOrder`). -/

/-- Type `map[string]CompanyStats`. -/
abbrev CompanyMap : Type := List (String × CompanyStats)

/-- Lookup `val, ok := m[k]`. -/
def mapGet : CompanyMap → String → Option CompanyStats
  | [], _ => none
  | (k1, v1) :: rest, k => if k1 = k then some v1 else mapGet rest k

/-- Assignment `m[k] = v`. -/
def mapSet : CompanyMap → String → CompanyStats → CompanyMap
  | [], k, v => [(k, v)]
  | (k1, v1) :: rest, k, v =>
    if k1 = k then (k, v) :: rest else (k1, v1) :: mapSet rest k v

/-! ## Affiliation aggregator -/

/-- Lines 46-51 of `ParseCompanyStats`: the organization name of a declared
company string. -/
def normalizeCompany (company : String) : String :=
  match company.data with
  | [] => "No company"
  | c :: rest => if c = '@' then String.mk rest else company

/-- Body of the `for _, stat := range stats` loop of `ParseCompanyStats`, with
`Get` standing for `client.Users.Get(ctx, ·)`.  The result is
`.ok (.ok companies)` when the body falls through to the next iteration,
`.ok (.error err)` when it executes `return nil, err`, and `.error` on a panic. -/
def loopBody (Get : String → Except Error User) (companies : CompanyMap)
    (stat : Option ContributorStats) : Except Abort (Except Error CompanyMap) :=
  let contributor := GetAuthor stat
  let username := GetLogin contributor
  match Get username with
  | .error err => .ok (.error err)
  | .ok user =>
    let company := normalizeCompany (GetCompany user)
    match mapGet companies company with
    | none => do
      let c ← derefContributor contributor
      let t ← derefTotal stat
      pure (.ok (mapSet companies company
        { Name := company, Contributors := [c], Contributions := t }))
    | some val => do
      let c ← derefContributor contributor
      let t ← derefTotal stat
      pure (.ok (mapSet companies company
        { val with Contributors := val.Contributors ++ [c],
                   Contributions := GoInt.add val.Contributions t }))

/-- The `for` loop of `ParseCompanyStats` and the final `return companies, nil`.
A returned pair is `(orgStats, err)` with `none` for `nil`. -/
def aggregate (Get : String → Except Error User) :
    List (Option ContributorStats) → CompanyMap →
      Except Abort (Option CompanyMap × Option Error)
  | [], companies => .ok (some companies, none)
  | stat :: rest, companies =>
    match loopBody Get companies stat with
    | .error a => .error a
    | .ok (.error err) => .ok (none, some err)
    | .ok (.ok companies1) => aggregate Get rest companies1

/-- Go function `ParseCompanyStats` (the context argument carries no data). -/
def ParseCompanyStats (stats : List (Option ContributorStats))
    (Get : String → Except Error User) :
    Except Abort (Option CompanyMap × Option Error) :=
  aggregate Get stats []

/-! ### Vocabulary for the aggregation properties -/

/-- A stat whose pointers are all set: the `ContributorStat` of the data model,
with an author and a total. -/
def populated (stat : Option ContributorStats) : Bool :=
  match stat with
  | some s => s.Author.isSome && s.Total.isSome
  | none => false

/-- Total of a stat (`0` when absent, as the accessor `GetTotal`). -/
def totalOf (stat : Option ContributorStats) : GoInt :=
  match stat with
  | some s =>
    match s.Total with
    | some t => t
    | none => GoInt.ofInt 0
  | none => GoInt.ofInt 0

/-- Whether the profile lookup of the contributor of a stat succeeds. -/
def lookupOk (Get : String → Except Error User) (stat : Option ContributorStats) : Bool :=
  match Get (GetLogin (GetAuthor stat)) with
  | .ok _ => true
  | .error _ => false

/-- Normalized company of the contributor of a stat, when the lookup succeeds. -/
def companyOf (Get : String → Except Error User) (stat : Option ContributorStats) :
    Option String :=
  match Get (GetLogin (GetAuthor stat)) with
  | .ok user => some (normalizeCompany (GetCompany user))
  | .error _ => none

/-- Contributions of all the entries of a map. -/
def contributionsOf (m : CompanyMap) : List GoInt := m.map (fun e => e.2.Contributions)

/-- Author of a stat (the zero value of `Contributor` when absent). -/
def authorOf (stat : Option ContributorStats) : Contributor :=
  match GetAuthor stat with
  | some c => c
  | none => { Login := none, ID := none }

/-- The stats of a list whose contributor has normalized company `k`, in input
order. -/
def statsOf (Get : String → Except Error User) (k : String)
    (stats : List (Option ContributorStats)) : List (Option ContributorStats) :=
  stats.filter (fun s => decide (companyOf Get s = some k))

/-- The entry that lines 55-68 store under `company` for a stat, given the
entry `old` found there. -/
def credit (old : Option CompanyStats) (company : String)
    (stat : Option ContributorStats) : CompanyStats :=
  match old with
  | none => { Name := company, Contributors := [authorOf stat], Contributions := totalOf stat }
  | some val =>
    { val with Contributors := val.Contributors ++ [authorOf stat],
               Contributions := GoInt.add val.Contributions (totalOf stat) }

/-- Keys of a map, one per entry. -/
def keysOf (m : CompanyMap) : List String := m.map (fun e => e.1)

/-- Normalized companies of the contributors of a list of stats, in input order
and with repetitions. -/
def namesOf (Get : String → Except Error User)
    (stats : List (Option ContributorStats)) : List String :=
  stats.filterMap (companyOf Get)

/-- Number of contributors of each entry of a map. -/
def contributorCounts (m : CompanyMap) : List Nat := m.map (fun e => e.2.Contributors.length)

/-- Stat of the running example: a contributor with a login and a total. -/
def mkStat (login : String) (total : Int) : Option ContributorStats :=
  some { Author := some { Login := some login, ID := none }, Total := some (GoInt.ofInt total) }

/-- Profile service of the end-to-end scenario: alice declares "@acme", bob
declares nothing, every other login is unknown. -/
def exampleGet (login : String) : Except Error User :=
  if login = "alice" then .ok { Company := some "@acme" }
  else if login = "bob" then .ok { Company := some "" }
  else if login = "carol" then .ok { Company := some "acme" }
  else .error (Error.other "404 Not Found")

/-- Stats of the end-to-end scenario: alice with 10 and bob with 5 contributions. -/
def exampleStats : List (Option ContributorStats) := [mkStat "alice" 10, mkStat "bob" 5]

/-- The map that the end-to-end scenario produces. -/
def exampleResult : CompanyMap :=
  [("acme", ⟨"acme", [⟨some "alice", none⟩], GoInt.ofInt 10⟩),
    ("No company", ⟨"No company", [⟨some "bob", none⟩], GoInt.ofInt 5⟩)]

/-- Stats of three contributors, two of them (alice and carol) of one company. -/
def sharedStats : List (Option ContributorStats) :=
  [mkStat "alice" 10, mkStat "bob" 5, mkStat "carol" 7]

/-- The map that `sharedStats` produces. -/
def sharedResult : CompanyMap :=
  [("acme", ⟨"acme", [⟨some "alice", none⟩, ⟨some "carol", none⟩], GoInt.ofInt 17⟩),
    ("No company", ⟨"No company", [⟨some "bob", none⟩], GoInt.ofInt 5⟩)]

/-- Stats in which the lookup of the second contributor fails. -/
def failingStats : List (Option ContributorStats) :=
  [mkStat "alice" 10, mkStat "mallory" 3, mkStat "bob" 5]

/-- A stat as the forge sends it for commits without a linked account: the
author is `null`. -/
def anonymousStat : Option ContributorStats :=
  some { Author := none, Total := some (GoInt.ofInt 5) }

/-- Profile service of an authenticated client: the empty login is answered
with the profile of the token's owner, the other logins as in `exampleGet`. -/
def ownerGet (login : String) : Except Error User :=
  if login = "" then .ok { Company := some "acme" } else exampleGet login

/-- The map of the end-to-end scenario, entered in the order bob, alice. -/
def exampleMap : CompanyMap :=
  [("No company", ⟨"No company", [⟨some "bob", none⟩], GoInt.ofInt 5⟩),
    ("acme", ⟨"acme", [⟨some "alice", none⟩], GoInt.ofInt 10⟩)]

/-- Profile service for the corner cases of the normalization: dave declares
"@@acme" and erin declares "@". -/
def atGet (login : String) : Except Error User :=
  if login = "dave" then .ok { Company := some "@@acme" }
  else if login = "erin" then .ok { Company := some "@" }
  else .error (Error.other "404 Not Found")

/-! ## Sorting

`sort.Slice` belongs to the Go standard library.  The report printer is stated
for every implementation that meets its contract (`SortsBy`);
`insertionSort` is the routine the library runs on slices of at most 12
elements and shows that the contract can be met. -/

/-- Inner loop of the library's `insertionSortLessFunc`, on the already ordered
elements before position `i` listed from right to left: the new element moves
left while it is `less` than its left neighbour. -/
def insertLeft {α : Type} (less : α → α → Bool) (x : α) : List α → List α
  | [] => [x]
  | y :: ys => if less x y then y :: insertLeft less x ys else x :: y :: ys

/-- Outer loop of `insertionSortLessFunc`: `done` holds the ordered elements
from right to left. -/
def insertionLoop {α : Type} (less : α → α → Bool) : List α → List α → List α
  | done, [] => done.reverse
  | done, x :: rest => insertionLoop less (insertLeft less x done) rest

/-- Insertion sort of the Go library. -/
def insertionSort {α : Type} (less : α → α → Bool) (xs : List α) : List α :=
  insertionLoop less [] xs

/-- Contract of `sort.Slice(x, less)`: the slice is rearranged, and afterwards
no element is `less` than the one just before it (what `sort.SliceIsSorted`
checks). -/
def SortsBy {α : Type} (sortSlice : (α → α → Bool) → List α → List α)
    (less : α → α → Bool) : Prop :=
  ∀ xs, (sortSlice less xs).Perm xs ∧
    List.Chain' (fun a b => less b a = false) (sortSlice less xs)

/-! ## The program `main` -/

/-- Value of `*github.Client`: anonymous or carrying an access token. -/
structure Client where
  token : Option String
  deriving DecidableEq

/-- Answer of one call of `client.Repositories.ListContributorsStats`: the
stats and the error (`none` for `nil`). -/
abbrev StatsResponse : Type := List (Option ContributorStats) × Option Error

/-- Everything outside the program that a run depends on. -/
structure Env where
  /-- Value of `os.Args`. -/
  args : List String
  /-- Value of `os.Getenv("GITHUB_TOKEN")`. -/
  token : String
  /-- Answer of the forge to the `i`-th call (from 0) of `ListContributorsStats`. -/
  ListContributorsStats : Client → String → String → Nat → StatsResponse
  /-- Answer of the forge to `client.Users.Get(ctx, login)`. -/
  UsersGet : Client → String → Except Error User
  /-- Order in which `range` visits the entries of a map. -/
  rangeOrder : CompanyMap → CompanyMap
  /-- Implementation of `sort.Slice`. -/
  sortSlice : (CompanyStats → CompanyStats → Bool) → List CompanyStats → List CompanyStats

/-- One line written to standard output. -/
inductive Line where
  /-- Line `"Company stats for %s/%s\n"`. -/
  | header (author repo : String)
  /-- Line `"Total contributors: %d\n"`. -/
  | totalContributors (n : Nat)
  /-- Line `"Total companies: %d\n\n"`. -/
  | totalCompanies (n : Nat)
  /-- Line `"Companies sorted by contributions:"`. -/
  | title
  /-- Line `val.String()` of one company. -/
  | company (val : CompanyStats)
  deriving DecidableEq

/-- What a finished run of the program did. -/
structure Run where
  /-- Messages written by the `log` package, in order. -/
  log : List String
  /-- Lines written to standard output, in order. -/
  stdout : List Line
  /-- Number of calls of `ListContributorsStats`. -/
  reads : Nat
  /-- Durations in seconds of the calls of `time.Sleep`, in order. -/
  sleeps : List Nat
  /-- Exit status of the process: 0 on return from `main`, 1 after `log.Fatal`,
  2 after a panic. -/
  exit : Nat
  deriving DecidableEq

/-- State of the polling loop. -/
structure PollState where
  log : List String
  reads : Nat
  sleeps : List Nat
  deriving DecidableEq

/-- The `for` loop of `main` around `ListContributorsStats`.  `read i` is the
answer to the `i`-th call.  The loop has no bound of its own: `fuel` bounds the
number of iterations traced, and `none` means the loop is still running. -/
def pollLoop (read : Nat → StatsResponse) : Nat → PollState → Option (PollState × StatsResponse)
  | 0, _ => none
  | fuel + 1, st =>
    let resp := read st.reads
    let st1 : PollState := { st with reads := st.reads + 1 }
    match resp.2 with
    | some Error.accepted =>
      pollLoop read fuel
        { st1 with log := st1.log ++ ["scheduled on GitHub side"], sleeps := st1.sleeps ++ [3] }
    | _ => some (st1, resp)

/-- The comparison handed to `sort.Slice` by `main`. -/
def moreContributions (a b : CompanyStats) : Bool :=
  decide (a.Contributions.val > b.Contributions.val)

/-- The slice `sortedCompanies` of `main` after `sort.Slice`. -/
def sortedCompanies (env : Env) (compStats : CompanyMap) : List CompanyStats :=
  env.sortSlice moreContributions ((env.rangeOrder compStats).map (fun e => e.2))

/-- The report that `main` prints. -/
def report (env : Env) (author repo : String) (stats : List (Option ContributorStats))
    (compStats : CompanyMap) : List Line :=
  [Line.header author repo, Line.totalContributors stats.length,
    Line.totalCompanies compStats.length, Line.title]
    ++ (sortedCompanies env compStats).map Line.company

/-- Lines 108-115 of `main`: the client built from the value of `GITHUB_TOKEN`. -/
def newClient (token : String) : Client :=
  if token = "" then { token := none } else { token := some token }

/-- Lines 108-115 of `main`: the message logged about the token. -/
def tokenLog (token : String) : String :=
  if token = "" then "No GITHUB_TOKEN found in environment, you might get rate limited!"
  else "Using token for GitHub API access"

/-- Go function `main`.  `none` means that the polling loop has not ended
within `fuel` iterations. -/
def main (env : Env) (fuel : Nat) : Option Run :=
  if env.args.length ≠ 2 then
    some { log := ["no url specified"], stdout := [], reads := 0, sleeps := [], exit := 1 }
  else
    match ParseUrl (env.args.getD 1 "") with
    | .error (Abort.fatal msg) =>
      some { log := [msg], stdout := [], reads := 0, sleeps := [], exit := 1 }
    | .error Abort.panic =>
      some { log := [], stdout := [], reads := 0, sleeps := [], exit := 2 }
    | .ok (author, repo) =>
      let client := newClient env.token
      match pollLoop (env.ListContributorsStats client author repo) fuel
          { log := [tokenLog env.token], reads := 0, sleeps := [] } with
      | none => none
      | some (st, stats, _) =>
        match ParseCompanyStats stats (env.UsersGet client) with
        | .error _ =>
          some { log := st.log, stdout := [], reads := st.reads, sleeps := st.sleeps, exit := 2 }
        | .ok (_, some err) =>
          some { log := st.log ++ [err.msg], stdout := [], reads := st.reads,
                 sleeps := st.sleeps, exit := 1 }
        | .ok (compStats, none) =>
          some { log := st.log, stdout := report env author repo stats (compStats.getD []),
                 reads := st.reads, sleeps := st.sleeps, exit := 0 }

/-- An environment for the examples: the forge answers the reads from a fixed
script (the last answer repeats), profiles come from `exampleGet`, `range`
visits the entries in list order and `sort.Slice` is the insertion sort. -/
def exampleEnv (url : String) (script : List StatsResponse) (last : StatsResponse) : Env where
  args := ["github-meta-analytics", url]
  token := ""
  ListContributorsStats := fun _ _ _ i => script.getD i last
  UsersGet := fun _ login => exampleGet login
  rangeOrder := fun m => m
  sortSlice := insertionSort

/-! # Properties -/

/-! ## URL parser -/

/-! The three facts that fix what `strings.Split(s, "/")` returns: it yields one
token more than there are separators, no token holds a separator, and the
tokens joined by the separator give back the string. -/

theorem splitChars_ne_nil (sep : Char) (cs : List Char) : splitChars sep cs ≠ [] := by
  cases cs with
  | nil => simp [splitChars]
  | cons c cs =>
    by_cases h : c = sep
    · simp [splitChars, h]
    · simp only [splitChars, h, if_false]
      cases splitChars sep cs <;> simp

theorem splitChars_length (sep : Char) (cs : List Char) :
    (splitChars sep cs).length = cs.count sep + 1 := by
  induction cs with
  | nil => simp [splitChars]
  | cons c cs ih =>
    by_cases h : c = sep
    · simp [splitChars, h, ih]
    · have hne := splitChars_ne_nil sep cs
      simp only [splitChars, h, if_false]
      cases hs : splitChars sep cs with
      | nil => exact absurd hs hne
      | cons t ts =>
        rw [hs] at ih
        have hc : ¬ (c == sep) = true := by simpa using h
        simp only [List.length_cons] at ih ⊢
        rw [List.count_cons, if_neg hc]
        omega

theorem splitChars_not_mem (sep : Char) (cs : List Char) :
    ∀ t ∈ splitChars sep cs, sep ∉ t := by
  induction cs with
  | nil => simp [splitChars]
  | cons c cs ih =>
    by_cases h : c = sep
    · simp only [splitChars, h, if_true]
      intro t ht
      rcases List.mem_cons.mp ht with h1 | h1
      · rw [h1]; simp
      · exact ih t h1
    · have hne := splitChars_ne_nil sep cs
      simp only [splitChars, h, if_false]
      cases hs : splitChars sep cs with
      | nil => exact absurd hs hne
      | cons t ts =>
        rw [hs] at ih
        intro u hu
        rcases List.mem_cons.mp hu with h1 | h1
        · rw [h1]
          intro hmem
          rcases List.mem_cons.mp hmem with h2 | h2
          · exact h h2.symm
          · exact ih t (List.mem_cons_self _ _) h2
        · exact ih u (List.mem_cons_of_mem _ h1)

theorem splitChars_join (sep : Char) (cs : List Char) :
    List.intercalate [sep] (splitChars sep cs) = cs := by
  induction cs with
  | nil => simp [splitChars, List.intercalate]
  | cons c cs ih =>
    have hne := splitChars_ne_nil sep cs
    by_cases h : c = sep
    · simp only [splitChars, h, if_true]
      cases hs : splitChars sep cs with
      | nil => exact absurd hs hne
      | cons t ts =>
        rw [hs] at ih
        simp only [List.intercalate, List.intersperse] at ih ⊢
        simp [ih]
    · simp only [splitChars, h, if_false]
      cases hs : splitChars sep cs with
      | nil => exact absurd hs hne
      | cons t ts =>
        rw [hs] at ih
        simp only
        cases ts with
        | nil =>
          simp only [List.intercalate, List.intersperse] at ih ⊢
          simp at ih ⊢
          exact ih
        | cons u us =>
          simp only [List.intercalate, List.intersperse] at ih ⊢
          simp at ih ⊢
          exact ih

theorem Split_length (s : String) : (Split s).length = s.data.count '/' + 1 := by
  unfold Split
  rw [List.length_map, splitChars_length]

theorem index_of_lt (tokens : List String) (i : Nat) (h : i < tokens.length) :
    index tokens i = .ok (tokens.get ⟨i, h⟩) := by
  unfold index
  rw [List.get?_eq_get h]

/-- C3: when `strings.Split(url, "/")` yields exactly 3 tokens, `ParseUrl`
returns `(tokens[1], tokens[2])`. -/
theorem ParseUrl_three_tokens (url : String) (h : (Split url).length = 3) :
    ParseUrl url =
      .ok ((Split url).get ⟨1, by omega⟩, (Split url).get ⟨2, by omega⟩) := by
  unfold ParseUrl
  simp only [h, if_true]
  rw [index_of_lt _ 1 (by omega), index_of_lt _ 2 (by omega)]
  rfl

/-- C3, example of the specification: `"github.com/golang/go"` has 3 tokens
and gives `("golang", "go")`. -/
theorem ParseUrl_three_tokens_witness :
    (Split "github.com/golang/go").length = 3 ∧
      ParseUrl "github.com/golang/go" = .ok ("golang", "go") :=
  ⟨by decide, (ParseUrl_three_tokens "github.com/golang/go" (by decide)).trans (by decide)⟩

/-- C4: when `strings.Split(url, "/")` yields exactly 5 tokens, `ParseUrl`
returns `(tokens[3], tokens[4])`. -/
theorem ParseUrl_five_tokens (url : String) (h : (Split url).length = 5) :
    ParseUrl url =
      .ok ((Split url).get ⟨3, by omega⟩, (Split url).get ⟨4, by omega⟩) := by
  unfold ParseUrl
  simp only [h, if_true, show ¬ ((5 : Nat) = 3) by decide, if_false]
  rw [index_of_lt _ 3 (by omega), index_of_lt _ 4 (by omega)]
  rfl

/-- C4, example of the specification: `"https://github.com/golang/go"` has 5
tokens and gives `("golang", "go")`. -/
theorem ParseUrl_five_tokens_witness :
    (Split "https://github.com/golang/go").length = 5 ∧
      ParseUrl "https://github.com/golang/go" = .ok ("golang", "go") :=
  ⟨by decide,
    (ParseUrl_five_tokens "https://github.com/golang/go" (by decide)).trans (by decide)⟩

/-- C5: `ParseUrl` ends in the fatal error "invalid url" exactly when the number
of tokens is neither 3 nor 5, it returns a pair exactly when the number is 3 or
5, and it has no other outcome. -/
theorem ParseUrl_invalid_iff (url : String) :
    (ParseUrl url = .error (Abort.fatal "invalid url") ↔
        (Split url).length ≠ 3 ∧ (Split url).length ≠ 5) ∧
      ((∃ p, ParseUrl url = .ok p) ↔ (Split url).length = 3 ∨ (Split url).length = 5) ∧
      ParseUrl url ≠ .error Abort.panic := by
  by_cases h3 : (Split url).length = 3
  · have h := ParseUrl_three_tokens url h3
    rw [h]
    refine ⟨⟨fun hc => (by cases hc), fun hc => absurd h3 hc.1⟩,
      ⟨fun _ => Or.inl h3, fun _ => ⟨_, rfl⟩⟩, fun hc => by cases hc⟩
  · by_cases h5 : (Split url).length = 5
    · have h := ParseUrl_five_tokens url h5
      rw [h]
      refine ⟨⟨fun hc => (by cases hc), fun hc => absurd h5 hc.2⟩,
        ⟨fun _ => Or.inr h5, fun _ => ⟨_, rfl⟩⟩, fun hc => by cases hc⟩
    · have h : ParseUrl url = .error (Abort.fatal "invalid url") := by
        unfold ParseUrl
        simp only [h3, h5, if_false]
      rw [h]
      refine ⟨⟨fun _ => ⟨h3, h5⟩, fun _ => rfl⟩,
        ⟨fun hc => ?_, fun hc => ?_⟩, fun hc => by cases hc⟩
      · obtain ⟨p, hp⟩ := hc
        cases hp
      · rcases hc with hc | hc
        · exact absurd hc h3
        · exact absurd hc h5

/-! ## Go integers -/

theorem wrapInt_of_inInt64 (x : Int) (h : InInt64 x) : wrapInt x = x := by
  unfold InInt64 at h
  unfold wrapInt
  omega

theorem wrapInt_add_left (x y : Int) : wrapInt (wrapInt x + y) = wrapInt (x + y) := by
  unfold wrapInt
  omega

theorem wrapInt_add_right (x y : Int) : wrapInt (x + wrapInt y) = wrapInt (x + y) := by
  unfold wrapInt
  omega

theorem GoInt.ext_val (a b : GoInt) (h : a.val = b.val) : a = b := Subtype.ext h

theorem GoInt.ofInt_val (x : Int) : (GoInt.ofInt x).val = wrapInt x := rfl

theorem GoInt.add_val (a b : GoInt) : (GoInt.add a b).val = wrapInt (a.val + b.val) := rfl

theorem GoInt.ofInt_self (a : GoInt) : GoInt.ofInt a.val = a :=
  Subtype.ext (wrapInt_of_inInt64 a.val a.property)

theorem foldl_add_val (xs : List GoInt) (a : GoInt) :
    (xs.foldl GoInt.add a).val = wrapInt (a.val + intSum xs) := by
  induction xs generalizing a with
  | nil =>
    simp only [List.foldl_nil, intSum, List.map_nil, List.sum_nil, add_zero]
    exact (wrapInt_of_inInt64 a.val a.property).symm
  | cons x xs ih =>
    simp only [List.foldl_cons, intSum, List.map_cons, List.sum_cons]
    rw [ih, GoInt.add_val, wrapInt_add_left]
    simp only [intSum, add_assoc]

theorem goSum_val (xs : List GoInt) : (goSum xs).val = wrapInt (intSum xs) := by
  unfold goSum
  rw [foldl_add_val, GoInt.ofInt_val, wrapInt_add_left, zero_add]

/-! ## Go maps -/

theorem mapGet_mapSet (m : CompanyMap) (k : String) (v : CompanyStats) (k1 : String) :
    mapGet (mapSet m k v) k1 = if k = k1 then some v else mapGet m k1 := by
  induction m with
  | nil => simp [mapSet, mapGet]
  | cons e rest ih =>
    obtain ⟨k0, v0⟩ := e
    by_cases h0 : k0 = k
    · subst h0
      by_cases h1 : k0 = k1 <;> simp [mapSet, mapGet, h1]
    · by_cases h1 : k0 = k1
      · subst h1
        have h2 : ¬ k = k0 := fun h => h0 h.symm
        simp [mapSet, mapGet, h0, h2]
      · simp [mapSet, mapGet, h0, h1, ih]

theorem contributions_mapSet_none (m : CompanyMap) (k : String) (v : CompanyStats)
    (h : mapGet m k = none) :
    intSum (contributionsOf (mapSet m k v)) = intSum (contributionsOf m) + v.Contributions.val := by
  induction m with
  | nil => simp [mapSet, contributionsOf, intSum]
  | cons e rest ih =>
    obtain ⟨k0, v0⟩ := e
    by_cases h0 : k0 = k
    · simp [mapGet, h0] at h
    · simp only [mapGet, h0, if_false] at h
      have ih1 := ih h
      simp only [contributionsOf, intSum, List.map_map] at ih1
      simp only [mapSet, h0, if_false, contributionsOf, intSum, List.map_cons, List.sum_cons,
        List.map_map]
      rw [ih1]
      ring

theorem contributions_mapSet_some (m : CompanyMap) (k : String) (v v0 : CompanyStats)
    (h : mapGet m k = some v0) :
    intSum (contributionsOf (mapSet m k v)) =
      intSum (contributionsOf m) - v0.Contributions.val + v.Contributions.val := by
  induction m with
  | nil => simp [mapGet] at h
  | cons e rest ih =>
    obtain ⟨k1, v1⟩ := e
    by_cases h0 : k1 = k
    · simp only [mapGet, h0, if_true, Option.some.injEq] at h
      subst h
      simp only [mapSet, h0, if_true, contributionsOf, intSum, List.map_cons, List.sum_cons,
        List.map_map]
      ring
    · simp only [mapGet, h0, if_false] at h
      have ih1 := ih h
      simp only [contributionsOf, intSum, List.map_map] at ih1
      simp only [mapSet, h0, if_false, contributionsOf, intSum, List.map_cons, List.sum_cons,
        List.map_map]
      rw [ih1]
      ring

theorem mem_contributions_mapSet (m : CompanyMap) (k : String) (v : CompanyStats) (x : GoInt)
    (h : x ∈ contributionsOf (mapSet m k v)) :
    x = v.Contributions ∨ x ∈ contributionsOf m := by
  induction m with
  | nil =>
    simp only [mapSet, contributionsOf, List.map_cons, List.map_nil, List.mem_singleton] at h
    exact Or.inl h
  | cons e rest ih =>
    obtain ⟨k1, v1⟩ := e
    by_cases h0 : k1 = k
    · simp only [mapSet, h0, if_true, contributionsOf, List.map_cons, List.mem_cons] at h
      rcases h with h | h
      · exact Or.inl h
      · exact Or.inr (by simp only [contributionsOf, List.map_cons, List.mem_cons]; exact Or.inr h)
    · simp only [mapSet, h0, if_false, contributionsOf, List.map_cons, List.mem_cons] at h
      rcases h with h | h
      · exact Or.inr (by simp only [contributionsOf, List.map_cons, List.mem_cons]; exact Or.inl h)
      · rcases ih h with h1 | h1
        · exact Or.inl h1
        · exact Or.inr (by
            simp only [contributionsOf, List.map_cons, List.mem_cons]; exact Or.inr h1)

theorem mem_contributions_of_mapGet (m : CompanyMap) (k : String) (v : CompanyStats)
    (h : mapGet m k = some v) : v.Contributions ∈ contributionsOf m := by
  induction m with
  | nil => simp [mapGet] at h
  | cons e rest ih =>
    obtain ⟨k1, v1⟩ := e
    by_cases h0 : k1 = k
    · simp only [mapGet, h0, if_true, Option.some.injEq] at h
      subst h
      simp [contributionsOf]
    · simp only [mapGet, h0, if_false] at h
      have := ih h
      simp only [contributionsOf, List.map_cons, List.mem_cons]
      exact Or.inr this

theorem le_intSum_of_mem (xs : List GoInt) (hpos : ∀ x ∈ xs, 0 ≤ x.val) (a : GoInt)
    (ha : a ∈ xs) : a.val ≤ intSum xs := by
  induction xs with
  | nil => cases ha
  | cons x xs ih =>
    have hx : 0 ≤ x.val := hpos x (List.mem_cons_self _ _)
    have hrest : ∀ y ∈ xs, 0 ≤ y.val := fun y hy => hpos y (List.mem_cons_of_mem _ hy)
    have hsum : 0 ≤ intSum xs := by
      clear ih ha
      induction xs with
      | nil => simp [intSum]
      | cons y ys ih2 =>
        have hy : 0 ≤ y.val := hrest y (List.mem_cons_self _ _)
        have := ih2 (fun z hz => hpos z (by
          rcases List.mem_cons.mp hz with hz | hz
          · exact hz ▸ List.mem_cons_self _ _
          · exact List.mem_cons_of_mem _ (List.mem_cons_of_mem _ hz)))
          (fun z hz => hrest z (List.mem_cons_of_mem _ hz))
        simp only [intSum, List.map_cons, List.sum_cons] at this ⊢
        omega
    simp only [intSum, List.map_cons, List.sum_cons] at hsum ⊢
    rcases List.mem_cons.mp ha with h | h
    · subst h
      omega
    · have := ih hrest h
      simp only [intSum] at this
      omega

/-! ## Affiliation aggregator: the loop body -/

theorem populated_iff (stat : Option ContributorStats) :
    populated stat = true ↔ ∃ c t, stat = some { Author := some c, Total := some t } := by
  constructor
  · intro h
    cases stat with
    | none => simp [populated] at h
    | some s =>
      obtain ⟨a, t⟩ := s
      cases a with
      | none => simp [populated] at h
      | some c =>
        cases t with
        | none => simp [populated] at h
        | some t => exact ⟨c, t, rfl⟩
  · rintro ⟨c, t, rfl⟩
    rfl

theorem getAuthor_of_populated (stat : Option ContributorStats) (h : populated stat = true) :
    GetAuthor stat = some (authorOf stat) := by
  obtain ⟨c, t, rfl⟩ := (populated_iff stat).mp h
  rfl

theorem loopBody_of_lookup_error (Get : String → Except Error User) (m : CompanyMap)
    (stat : Option ContributorStats) (e : Error)
    (h : Get (GetLogin (GetAuthor stat)) = .error e) :
    loopBody Get m stat = .ok (.error e) := by
  unfold loopBody
  simp only [h]

theorem loopBody_of_populated (Get : String → Except Error User) (m : CompanyMap)
    (stat : Option ContributorStats) (user : User)
    (h : Get (GetLogin (GetAuthor stat)) = .ok user) (hp : populated stat = true) :
    loopBody Get m stat =
      .ok (.ok (mapSet m (normalizeCompany (GetCompany user))
        (credit (mapGet m (normalizeCompany (GetCompany user)))
          (normalizeCompany (GetCompany user)) stat))) := by
  obtain ⟨c, t, rfl⟩ := (populated_iff stat).mp hp
  unfold loopBody
  simp only [h]
  cases hm : mapGet m (normalizeCompany (GetCompany user)) <;> rfl

theorem loopBody_of_not_populated (Get : String → Except Error User) (m : CompanyMap)
    (stat : Option ContributorStats) (user : User)
    (h : Get (GetLogin (GetAuthor stat)) = .ok user) (hp : populated stat = false) :
    loopBody Get m stat = .error Abort.panic := by
  unfold loopBody
  simp only [h]
  cases stat with
  | none => cases hm : mapGet m (normalizeCompany (GetCompany user)) <;> rfl
  | some s =>
    obtain ⟨a, t⟩ := s
    cases a with
    | none => cases hm : mapGet m (normalizeCompany (GetCompany user)) <;> rfl
    | some c =>
      cases t with
      | none => cases hm : mapGet m (normalizeCompany (GetCompany user)) <;> rfl
      | some t => simp [populated] at hp

theorem lookupOk_iff (Get : String → Except Error User) (stat : Option ContributorStats) :
    lookupOk Get stat = true ↔ ∃ user, Get (GetLogin (GetAuthor stat)) = .ok user := by
  unfold lookupOk
  cases h : Get (GetLogin (GetAuthor stat)) with
  | error e => simp
  | ok u => simp

theorem lookupOk_false_iff (Get : String → Except Error User) (stat : Option ContributorStats) :
    lookupOk Get stat = false ↔ ∃ e, Get (GetLogin (GetAuthor stat)) = .error e := by
  unfold lookupOk
  cases h : Get (GetLogin (GetAuthor stat)) with
  | error e => simp
  | ok u => simp

theorem companyOf_of_lookup (Get : String → Except Error User) (stat : Option ContributorStats)
    (user : User) (h : Get (GetLogin (GetAuthor stat)) = .ok user) :
    companyOf Get stat = some (normalizeCompany (GetCompany user)) := by
  unfold companyOf
  rw [h]

/-! ## Affiliation aggregator: the loop -/

/-- Entry under key `k` after the loop has run over `stats` from a map whose
entry under `k` was `old`. -/
theorem aggregate_spec (Get : String → Except Error User)
    (stats : List (Option ContributorStats)) (m0 : CompanyMap)
    (hp : ∀ s ∈ stats, populated s = true) (hl : ∀ s ∈ stats, lookupOk Get s = true) :
    ∃ m, aggregate Get stats m0 = .ok (some m, none) ∧
      ∀ k, mapGet m k =
        (statsOf Get k stats).foldl (fun o s => some (credit o k s)) (mapGet m0 k) := by
  induction stats generalizing m0 with
  | nil => exact ⟨m0, rfl, fun k => rfl⟩
  | cons s rest ih =>
    obtain ⟨user, hu⟩ := (lookupOk_iff Get s).mp (hl s (List.mem_cons_self _ _))
    have hps := hp s (List.mem_cons_self _ _)
    have hbody := loopBody_of_populated Get m0 s user hu hps
    obtain ⟨m, hm, hk⟩ := ih
      (mapSet m0 (normalizeCompany (GetCompany user))
        (credit (mapGet m0 (normalizeCompany (GetCompany user)))
          (normalizeCompany (GetCompany user)) s))
      (fun x hx => hp x (List.mem_cons_of_mem _ hx))
      (fun x hx => hl x (List.mem_cons_of_mem _ hx))
    refine ⟨m, ?_, ?_⟩
    · simp only [aggregate, hbody]
      exact hm
    · intro k
      rw [hk k, mapGet_mapSet]
      have hc := companyOf_of_lookup Get s user hu
      by_cases hkc : normalizeCompany (GetCompany user) = k
      · subst hkc
        simp [statsOf, List.filter_cons, hc]
      · have : ¬ (companyOf Get s = some k) := by
          rw [hc]
          intro h
          exact hkc (Option.some.inj h)
        simp [statsOf, List.filter_cons, this, hkc]

theorem credit_none (k : String) (s : Option ContributorStats) :
    credit none k s =
      { Name := k, Contributors := [authorOf s], Contributions := totalOf s } := rfl

theorem credit_some (k : String) (s : Option ContributorStats) (v : CompanyStats) :
    credit (some v) k s =
      { Name := v.Name, Contributors := v.Contributors ++ [authorOf s],
        Contributions := GoInt.add v.Contributions (totalOf s) } := rfl

theorem foldl_credit_some (k : String) (ss : List (Option ContributorStats)) (v : CompanyStats) :
    ss.foldl (fun o s => some (credit o k s)) (some v) =
      some { Name := v.Name, Contributors := v.Contributors ++ ss.map authorOf,
             Contributions := (ss.map totalOf).foldl GoInt.add v.Contributions } := by
  induction ss generalizing v with
  | nil => simp
  | cons s ss ih =>
    simp only [List.foldl_cons, List.map_cons]
    rw [credit_some, ih]
    simp

theorem goSum_cons (t : GoInt) (ts : List GoInt) : goSum (t :: ts) = ts.foldl GoInt.add t := by
  unfold goSum
  simp only [List.foldl_cons]
  congr 1
  apply GoInt.ext_val
  rw [GoInt.add_val, GoInt.ofInt_val, wrapInt_add_left, zero_add]
  exact wrapInt_of_inInt64 t.val t.property

theorem foldl_credit_none (k : String) (s : Option ContributorStats)
    (ss : List (Option ContributorStats)) :
    (s :: ss).foldl (fun o s => some (credit o k s)) none =
      some { Name := k, Contributors := (s :: ss).map authorOf,
             Contributions := goSum ((s :: ss).map totalOf) } := by
  simp only [List.foldl_cons, List.map_cons]
  rw [credit_none, foldl_credit_some, goSum_cons]
  simp

/-- The map that `ParseCompanyStats` returns on stats that are all populated and
whose lookups all succeed: under each key, the stats of that organization. -/
theorem ParseCompanyStats_spec (Get : String → Except Error User)
    (stats : List (Option ContributorStats))
    (hp : ∀ s ∈ stats, populated s = true) (hl : ∀ s ∈ stats, lookupOk Get s = true) :
    ∃ m, ParseCompanyStats stats Get = .ok (some m, none) ∧
      ∀ k, (statsOf Get k stats = [] → mapGet m k = none) ∧
        (statsOf Get k stats ≠ [] → mapGet m k =
          some { Name := k, Contributors := (statsOf Get k stats).map authorOf,
                 Contributions := goSum ((statsOf Get k stats).map totalOf) }) := by
  obtain ⟨m, hm, hk⟩ := aggregate_spec Get stats [] hp hl
  refine ⟨m, hm, fun k => ⟨fun h => ?_, fun h => ?_⟩⟩
  · rw [hk k, h]
    rfl
  · rw [hk k]
    cases hs : statsOf Get k stats with
    | nil => exact absurd hs h
    | cons s ss => exact foldl_credit_none k s ss

theorem aggregate_first_failure (Get : String → Except Error User)
    (stats : List (Option ContributorStats)) (m0 : CompanyMap)
    (hp : ∀ s ∈ stats, populated s = true) (hf : ∃ s ∈ stats, lookupOk Get s = false) :
    ∃ pre s post e, stats = pre ++ s :: post ∧ (∀ x ∈ pre, lookupOk Get x = true) ∧
      Get (GetLogin (GetAuthor s)) = .error e ∧
      aggregate Get stats m0 = .ok (none, some e) := by
  induction stats generalizing m0 with
  | nil =>
    obtain ⟨s, hs, _⟩ := hf
    cases hs
  | cons s rest ih =>
    cases hs : lookupOk Get s with
    | false =>
      obtain ⟨e, he⟩ := (lookupOk_false_iff Get s).mp hs
      refine ⟨[], s, rest, e, rfl, fun x hx => (by cases hx), he, ?_⟩
      simp only [aggregate, loopBody_of_lookup_error Get m0 s e he]
    | true =>
      obtain ⟨user, hu⟩ := (lookupOk_iff Get s).mp hs
      have hbody := loopBody_of_populated Get m0 s user hu (hp s (List.mem_cons_self _ _))
      have hf1 : ∃ x ∈ rest, lookupOk Get x = false := by
        obtain ⟨x, hx, hxf⟩ := hf
        rcases List.mem_cons.mp hx with h | h
        · subst h
          rw [hs] at hxf
          cases hxf
        · exact ⟨x, h, hxf⟩
      obtain ⟨pre, x, post, e, hsplit, hpre, he, hagg⟩ := ih
        (mapSet m0 (normalizeCompany (GetCompany user))
          (credit (mapGet m0 (normalizeCompany (GetCompany user)))
            (normalizeCompany (GetCompany user)) s))
        (fun y hy => hp y (List.mem_cons_of_mem _ hy)) hf1
      refine ⟨s :: pre, x, post, e, by rw [hsplit]; rfl, ?_, he, ?_⟩
      · intro y hy
        rcases List.mem_cons.mp hy with h | h
        · rw [h]
          exact hs
        · exact hpre y h
      · simp only [aggregate, hbody]
        exact hagg

theorem intSum_nonneg (xs : List GoInt) (h : ∀ x ∈ xs, 0 ≤ x.val) : 0 ≤ intSum xs := by
  induction xs with
  | nil => simp [intSum]
  | cons x xs ih =>
    have hx := h x (List.mem_cons_self _ _)
    have := ih (fun y hy => h y (List.mem_cons_of_mem _ hy))
    simp only [intSum, List.map_cons, List.sum_cons] at this ⊢
    omega

theorem intSum_cons (x : GoInt) (xs : List GoInt) : intSum (x :: xs) = x.val + intSum xs := by
  simp [intSum]

/-- Machine sum of all contributions after the loop. -/
theorem aggregate_sum (Get : String → Except Error User)
    (stats : List (Option ContributorStats)) (m0 m : CompanyMap)
    (hp : ∀ s ∈ stats, populated s = true) (hl : ∀ s ∈ stats, lookupOk Get s = true)
    (h : aggregate Get stats m0 = .ok (some m, none)) :
    wrapInt (intSum (contributionsOf m)) =
      wrapInt (intSum (contributionsOf m0) + intSum (stats.map totalOf)) := by
  induction stats generalizing m0 with
  | nil =>
    simp only [aggregate, Except.ok.injEq, Prod.mk.injEq, Option.some.injEq, and_true] at h
    subst h
    simp [intSum]
  | cons s rest ih =>
    obtain ⟨user, hu⟩ := (lookupOk_iff Get s).mp (hl s (List.mem_cons_self _ _))
    have hbody := loopBody_of_populated Get m0 s user hu (hp s (List.mem_cons_self _ _))
    simp only [aggregate, hbody] at h
    have ih1 := ih _ (fun y hy => hp y (List.mem_cons_of_mem _ hy))
      (fun y hy => hl y (List.mem_cons_of_mem _ hy)) h
    rw [ih1, List.map_cons, intSum_cons]
    cases hm : mapGet m0 (normalizeCompany (GetCompany user)) with
    | none =>
      rw [contributions_mapSet_none _ _ _ hm, credit_none]
      simp only [add_assoc]
    | some v0 =>
      rw [contributions_mapSet_some _ _ _ v0 hm, credit_some]
      simp only [GoInt.add_val]
      unfold wrapInt
      omega

/-- Exact sum of all contributions after the loop, when nothing overflows. -/
theorem aggregate_sum_exact (Get : String → Except Error User)
    (stats : List (Option ContributorStats)) (m0 m : CompanyMap)
    (hp : ∀ s ∈ stats, populated s = true) (hl : ∀ s ∈ stats, lookupOk Get s = true)
    (hpos : ∀ s ∈ stats, 0 ≤ (totalOf s).val)
    (hm0 : ∀ x ∈ contributionsOf m0, 0 ≤ x.val)
    (hfit : intSum (contributionsOf m0) + intSum (stats.map totalOf) ≤ 9223372036854775807)
    (h : aggregate Get stats m0 = .ok (some m, none)) :
    intSum (contributionsOf m) = intSum (contributionsOf m0) + intSum (stats.map totalOf) := by
  induction stats generalizing m0 with
  | nil =>
    simp only [aggregate, Except.ok.injEq, Prod.mk.injEq, Option.some.injEq, and_true] at h
    subst h
    simp [intSum]
  | cons s rest ih =>
    obtain ⟨user, hu⟩ := (lookupOk_iff Get s).mp (hl s (List.mem_cons_self _ _))
    have hbody := loopBody_of_populated Get m0 s user hu (hp s (List.mem_cons_self _ _))
    simp only [aggregate, hbody] at h
    have hs0 : 0 ≤ (totalOf s).val := hpos s (List.mem_cons_self _ _)
    have hrest0 : 0 ≤ intSum (rest.map totalOf) := by
      apply intSum_nonneg
      intro x hx
      obtain ⟨y, hy, rfl⟩ := List.mem_map.mp hx
      exact hpos y (List.mem_cons_of_mem _ hy)
    have hS0 : 0 ≤ intSum (contributionsOf m0) := intSum_nonneg _ hm0
    rw [List.map_cons, intSum_cons] at hfit
    rw [List.map_cons, intSum_cons]
    cases hm : mapGet m0 (normalizeCompany (GetCompany user)) with
    | none =>
      rw [hm] at h
      have hsum : intSum (contributionsOf (mapSet m0 (normalizeCompany (GetCompany user))
          (credit none (normalizeCompany (GetCompany user)) s))) =
          intSum (contributionsOf m0) + (totalOf s).val :=
        contributions_mapSet_none m0 _ _ hm
      have ih1 := ih _ (fun y hy => hp y (List.mem_cons_of_mem _ hy))
        (fun y hy => hl y (List.mem_cons_of_mem _ hy))
        (fun y hy => hpos y (List.mem_cons_of_mem _ hy))
        (fun x hx => by
          rcases mem_contributions_mapSet _ _ _ _ hx with hx1 | hx1
          · rw [hx1, credit_none]
            exact hs0
          · exact hm0 x hx1)
        (by rw [hsum]; omega) h
      rw [ih1, hsum]
      ring
    | some v0 =>
      rw [hm] at h
      have hv0 : v0.Contributions ∈ contributionsOf m0 := mem_contributions_of_mapGet _ _ _ hm
      have hv0pos : 0 ≤ v0.Contributions.val := hm0 _ hv0
      have hv0le : v0.Contributions.val ≤ intSum (contributionsOf m0) :=
        le_intSum_of_mem _ hm0 _ hv0
      have hadd : (GoInt.add v0.Contributions (totalOf s)).val =
          v0.Contributions.val + (totalOf s).val := by
        rw [GoInt.add_val]
        apply wrapInt_of_inInt64
        unfold InInt64
        omega
      have hsum : intSum (contributionsOf (mapSet m0 (normalizeCompany (GetCompany user))
          (credit (some v0) (normalizeCompany (GetCompany user)) s))) =
          intSum (contributionsOf m0) - v0.Contributions.val +
            (GoInt.add v0.Contributions (totalOf s)).val :=
        contributions_mapSet_some m0 _ _ v0 hm
      rw [hadd] at hsum
      have ih1 := ih _ (fun y hy => hp y (List.mem_cons_of_mem _ hy))
        (fun y hy => hl y (List.mem_cons_of_mem _ hy))
        (fun y hy => hpos y (List.mem_cons_of_mem _ hy))
        (fun x hx => by
          rcases mem_contributions_mapSet _ _ _ _ hx with hx1 | hx1
          · rw [hx1, credit_some]
            simp only
            rw [hadd]
            omega
          · exact hm0 x hx1)
        (by rw [hsum]; omega) h
      rw [ih1, hsum]
      ring

/-! ## Sorting -/

theorem insertLeft_perm {α : Type} (less : α → α → Bool) (x : α) (done : List α) :
    (insertLeft less x done).Perm (x :: done) := by
  induction done with
  | nil => exact List.Perm.refl _
  | cons y ys ih =>
    by_cases h : less x y = true
    · simp only [insertLeft, h, if_true]
      exact (List.Perm.cons y ih).trans (List.Perm.swap x y ys)
    · simp only [insertLeft, h]
      exact List.Perm.refl _

theorem insertLeft_pairwise {α : Type} (less : α → α → Bool)
    (hasym : ∀ a b, less a b = true → less b a = false)
    (htrans : ∀ a b c, less a b = false → less b c = false → less a c = false)
    (x : α) (done : List α) (h : List.Pairwise (fun a b => less a b = false) done) :
    List.Pairwise (fun a b => less a b = false) (insertLeft less x done) := by
  induction done with
  | nil => simp [insertLeft]
  | cons y ys ih =>
    have hy := List.pairwise_cons.mp h
    by_cases hxy : less x y = true
    · simp only [insertLeft, hxy, if_true]
      refine List.pairwise_cons.mpr ⟨?_, ih hy.2⟩
      intro w hw
      rcases List.mem_cons.mp ((insertLeft_perm less x ys).mem_iff.mp hw) with hw1 | hw1
      · rw [hw1]
        exact hasym x y hxy
      · exact hy.1 w hw1
    · have hxy1 : less x y = false := by
        cases hl : less x y with
        | true => exact absurd hl hxy
        | false => rfl
      simp only [insertLeft, hxy1]
      refine List.pairwise_cons.mpr ⟨?_, h⟩
      intro w hw
      rcases List.mem_cons.mp hw with hw1 | hw1
      · rw [hw1]
        exact hxy1
      · exact htrans x y w hxy1 (hy.1 w hw1)

theorem insertionLoop_perm {α : Type} (less : α → α → Bool) (done xs : List α) :
    (insertionLoop less done xs).Perm (done ++ xs) := by
  induction xs generalizing done with
  | nil =>
    simp only [insertionLoop, List.append_nil]
    exact List.reverse_perm done
  | cons x rest ih =>
    simp only [insertionLoop]
    refine (ih (insertLeft less x done)).trans ?_
    refine ((insertLeft_perm less x done).append_right rest).trans ?_
    simp only [List.cons_append]
    exact List.perm_middle.symm

theorem insertionLoop_pairwise {α : Type} (less : α → α → Bool)
    (hasym : ∀ a b, less a b = true → less b a = false)
    (htrans : ∀ a b c, less a b = false → less b c = false → less a c = false)
    (done xs : List α) (h : List.Pairwise (fun a b => less a b = false) done) :
    List.Pairwise (fun a b => less b a = false) (insertionLoop less done xs) := by
  induction xs generalizing done with
  | nil =>
    simp only [insertionLoop]
    exact List.pairwise_reverse.mpr h
  | cons x rest ih =>
    simp only [insertionLoop]
    exact ih _ (insertLeft_pairwise less hasym htrans x done h)

/-- The insertion sort of the library meets the contract of `sort.Slice` for
every strict weak order. -/
theorem insertionSort_sortsBy {α : Type} (less : α → α → Bool)
    (hasym : ∀ a b, less a b = true → less b a = false)
    (htrans : ∀ a b c, less a b = false → less b c = false → less a c = false) :
    SortsBy insertionSort less := by
  intro xs
  refine ⟨?_, ?_⟩
  · have := insertionLoop_perm less [] xs
    simpa [insertionSort] using this
  · exact (insertionLoop_pairwise less hasym htrans [] xs List.Pairwise.nil).chain'

theorem moreContributions_asymm (a b : CompanyStats) (h : moreContributions a b = true) :
    moreContributions b a = false := by
  unfold moreContributions at h ⊢
  simp only [decide_eq_true_eq, decide_eq_false_iff_not] at h ⊢
  omega

theorem moreContributions_negTrans (a b c : CompanyStats) (h1 : moreContributions a b = false)
    (h2 : moreContributions b c = false) : moreContributions a c = false := by
  unfold moreContributions at h1 h2 ⊢
  simp only [decide_eq_false_iff_not] at h1 h2 ⊢
  omega

theorem insertionSort_moreContributions : SortsBy insertionSort moreContributions :=
  insertionSort_sortsBy moreContributions moreContributions_asymm moreContributions_negTrans

theorem aggregate_ok_inv (Get : String → Except Error User)
    (stats : List (Option ContributorStats)) (m0 m : CompanyMap)
    (h : aggregate Get stats m0 = .ok (some m, none)) :
    ∀ s ∈ stats, lookupOk Get s = true ∧ populated s = true := by
  induction stats generalizing m0 with
  | nil =>
    intro s hs
    cases hs
  | cons s rest ih =>
    cases hs : lookupOk Get s with
    | false =>
      obtain ⟨e, he⟩ := (lookupOk_false_iff Get s).mp hs
      simp only [aggregate, loopBody_of_lookup_error Get m0 s e he] at h
      cases h
    | true =>
      obtain ⟨user, hu⟩ := (lookupOk_iff Get s).mp hs
      cases hps : populated s with
      | false =>
        simp only [aggregate, loopBody_of_not_populated Get m0 s user hu hps] at h
        cases h
      | true =>
        simp only [aggregate, loopBody_of_populated Get m0 s user hu hps] at h
        intro x hx
        rcases List.mem_cons.mp hx with hx1 | hx1
        · rw [hx1]
          exact ⟨hs, hps⟩
        · exact ih _ h x hx1

theorem aggregate_error (Get : String → Except Error User)
    (pre : List (Option ContributorStats)) (s : Option ContributorStats)
    (post : List (Option ContributorStats)) (e : Error) (m0 : CompanyMap)
    (hpre : ∀ x ∈ pre, lookupOk Get x = true ∧ populated x = true)
    (he : Get (GetLogin (GetAuthor s)) = .error e) :
    aggregate Get (pre ++ s :: post) m0 = .ok (none, some e) := by
  induction pre generalizing m0 with
  | nil => simp only [List.nil_append, aggregate, loopBody_of_lookup_error Get m0 s e he]
  | cons x rest ih =>
    obtain ⟨hx1, hx2⟩ := hpre x (List.mem_cons_self _ _)
    obtain ⟨user, hu⟩ := (lookupOk_iff Get x).mp hx1
    simp only [List.cons_append, aggregate, loopBody_of_populated Get m0 x user hu hx2]
    exact ih _ (fun y hy => hpre y (List.mem_cons_of_mem _ hy))

theorem ParseCompanyStats_ok_inv (Get : String → Except Error User)
    (stats : List (Option ContributorStats)) (m : CompanyMap)
    (h : ParseCompanyStats stats Get = .ok (some m, none)) :
    (∀ s ∈ stats, lookupOk Get s = true) ∧ (∀ s ∈ stats, populated s = true) :=
  ⟨fun s hs => (aggregate_ok_inv Get stats [] m h s hs).1,
    fun s hs => (aggregate_ok_inv Get stats [] m h s hs).2⟩

theorem ParseCompanyStats_ok_unique (Get : String → Except Error User)
    (stats : List (Option ContributorStats)) (m1 m2 : CompanyMap)
    (h1 : ParseCompanyStats stats Get = .ok (some m1, none))
    (h2 : ParseCompanyStats stats Get = .ok (some m2, none)) : m1 = m2 := by
  rw [h1] at h2
  simp only [Except.ok.injEq, Prod.mk.injEq, Option.some.injEq, and_true] at h2
  exact h2

theorem ParseCompanyStats_returns (Get : String → Except Error User)
    (stats : List (Option ContributorStats))
    (hp : ∀ s ∈ stats, populated s = true) (hl : ∀ s ∈ stats, lookupOk Get s = true) :
    ∃ m, ParseCompanyStats stats Get = .ok (some m, none) := by
  obtain ⟨m, hm, _⟩ := aggregate_spec Get stats [] hp hl
  exact ⟨m, hm⟩

/-! ## Affiliation aggregator: the claims -/

/-- C1: for every list of stats whose profile lookups all succeed, the sum of
`Contributions` over the entries of the map returned by `ParseCompanyStats`
equals the sum of `Total` over the input stats: as sums of Go `int`s always, and
as exact integers whenever the totals are non-negative and their sum fits in an
`int`.  A map is returned whenever every stat carries an author and a total. -/
theorem ParseCompanyStats_contributions_sum (Get : String → Except Error User)
    (stats : List (Option ContributorStats))
    (hl : ∀ s ∈ stats, lookupOk Get s = true) :
    ((∀ s ∈ stats, populated s = true) →
      ∃ m, ParseCompanyStats stats Get = .ok (some m, none)) ∧
    ∀ m, ParseCompanyStats stats Get = .ok (some m, none) →
      goSum (contributionsOf m) = goSum (stats.map totalOf) ∧
      ((∀ s ∈ stats, 0 ≤ (totalOf s).val) →
        intSum (stats.map totalOf) ≤ 9223372036854775807 →
        intSum (contributionsOf m) = intSum (stats.map totalOf)) := by
  refine ⟨fun hp => ParseCompanyStats_returns Get stats hp hl, ?_⟩
  intro m hm
  have hp := (ParseCompanyStats_ok_inv Get stats m hm).2
  refine ⟨?_, ?_⟩
  · apply GoInt.ext_val
    rw [goSum_val, goSum_val, aggregate_sum Get stats [] m hp hl hm]
    simp [contributionsOf, intSum]
  · intro hpos hfit
    have h := aggregate_sum_exact Get stats [] m hp hl hpos (fun x hx => by cases hx)
      (by simpa [contributionsOf, intSum] using hfit) hm
    rw [h]
    simp [contributionsOf, intSum]

/-- C1 on alice (10), bob (5) and carol (7): the contributions 17 and 5 of the
two organizations sum to the 22 of the three totals. -/
theorem ParseCompanyStats_contributions_sum_witness :
    (∀ s ∈ sharedStats, lookupOk exampleGet s = true) ∧
    ParseCompanyStats sharedStats exampleGet = .ok (some sharedResult, none) ∧
    goSum (contributionsOf sharedResult) = goSum (sharedStats.map totalOf) ∧
    intSum (contributionsOf sharedResult) = 22 :=
  ⟨by decide, by decide,
    ((ParseCompanyStats_contributions_sum exampleGet sharedStats (by decide)).2
      sharedResult (by decide)).1,
    (((ParseCompanyStats_contributions_sum exampleGet sharedStats (by decide)).2
      sharedResult (by decide)).2 (by decide) (by decide)).trans (by decide)⟩

theorem normalizeCompany_empty : normalizeCompany "" = "No company" := rfl

theorem normalizeCompany_at (rest : List Char) :
    normalizeCompany (String.mk ('@' :: rest)) = String.mk rest := by
  simp [normalizeCompany]

theorem normalizeCompany_other (c : String) (h0 : c ≠ "")
    (h1 : c.data.head? ≠ some '@') : normalizeCompany c = c := by
  obtain ⟨cs⟩ := c
  cases cs with
  | nil => exact absurd rfl h0
  | cons ch rest =>
    have : ¬ ch = '@' := by
      intro h
      apply h1
      simp [h]
    simp [normalizeCompany, this]

/-- C6: a pass of the loop of `ParseCompanyStats` that processes a contributor
whose profile declares the company `c` credits the contributor to one
organization name: "No company" when `c` is empty, `c` without its first
character when `c` starts with `'@'`, and `c` itself otherwise.  The contributor
is appended to the entry of that name and no other entry changes.  The pass
completes whenever the stat carries an author and a total. -/
theorem loopBody_attribution (Get : String → Except Error User) (companies : CompanyMap)
    (stat : Option ContributorStats) (user : User)
    (hget : Get (GetLogin (GetAuthor stat)) = .ok user) :
    (populated stat = true → ∃ companies1, loopBody Get companies stat = .ok (.ok companies1)) ∧
    ∀ companies1, loopBody Get companies stat = .ok (.ok companies1) →
      ∃ name contributor val,
        (GetCompany user = "" → name = "No company") ∧
        (∀ rest, GetCompany user = String.mk ('@' :: rest) → name = String.mk rest) ∧
        (GetCompany user ≠ "" → (GetCompany user).data.head? ≠ some '@' →
          name = GetCompany user) ∧
        GetAuthor stat = some contributor ∧
        mapGet companies1 name = some val ∧
        val.Contributors.getLast? = some contributor ∧
        ∀ k, k ≠ name → mapGet companies1 k = mapGet companies k := by
  refine ⟨fun hp => ⟨_, loopBody_of_populated Get companies stat user hget hp⟩, ?_⟩
  intro companies1 hbody
  have hp : populated stat = true := by
    cases hps : populated stat with
    | true => rfl
    | false =>
      rw [loopBody_of_not_populated Get companies stat user hget hps] at hbody
      cases hbody
  rw [loopBody_of_populated Get companies stat user hget hp] at hbody
  simp only [Except.ok.injEq] at hbody
  subst hbody
  refine ⟨normalizeCompany (GetCompany user), authorOf stat,
    credit (mapGet companies (normalizeCompany (GetCompany user)))
      (normalizeCompany (GetCompany user)) stat, ?_, ?_, ?_, ?_, ?_, ?_, ?_⟩
  · intro h
    rw [h]
    rfl
  · intro rest h
    rw [h]
    exact normalizeCompany_at rest
  · exact normalizeCompany_other _
  · exact getAuthor_of_populated stat hp
  · rw [mapGet_mapSet]
    simp
  · cases hm : mapGet companies (normalizeCompany (GetCompany user)) with
    | none => simp [credit_none]
    | some v => simp [credit_some]
  · intro k hk
    rw [mapGet_mapSet]
    have : ¬ normalizeCompany (GetCompany user) = k := fun h => hk h.symm
    simp [this]

/-- C6 on the three companies of the specification (`""` gives "No company",
`"@golang"` gives "golang", `"Google"` gives "Google") and on alice, who
declares "@acme" and is credited to "acme". -/
theorem loopBody_attribution_witness :
    (normalizeCompany "" = "No company" ∧ normalizeCompany "@golang" = "golang" ∧
      normalizeCompany "Google" = "Google") ∧
    exampleGet (GetLogin (GetAuthor (mkStat "alice" 10))) = .ok { Company := some "@acme" } ∧
    loopBody exampleGet exampleMap (mkStat "alice" 10) =
      .ok (.ok [("No company", ⟨"No company", [⟨some "bob", none⟩], GoInt.ofInt 5⟩),
        ("acme", ⟨"acme", [⟨some "alice", none⟩, ⟨some "alice", none⟩], GoInt.ofInt 20⟩)]) ∧
    ∃ name contributor val,
      (GetCompany { Company := some "@acme" } = "" → name = "No company") ∧
      (∀ rest, GetCompany { Company := some "@acme" } = String.mk ('@' :: rest) →
        name = String.mk rest) ∧
      (GetCompany { Company := some "@acme" } ≠ "" →
        (GetCompany { Company := some "@acme" }).data.head? ≠ some '@' →
        name = GetCompany { Company := some "@acme" }) ∧
      GetAuthor (mkStat "alice" 10) = some contributor ∧
      mapGet [("No company", ⟨"No company", [⟨some "bob", none⟩], GoInt.ofInt 5⟩),
        ("acme", ⟨"acme", [⟨some "alice", none⟩, ⟨some "alice", none⟩], GoInt.ofInt 20⟩)]
          name = some val ∧
      val.Contributors.getLast? = some contributor ∧
      ∀ k, k ≠ name →
        mapGet [("No company", ⟨"No company", [⟨some "bob", none⟩], GoInt.ofInt 5⟩),
          ("acme", ⟨"acme", [⟨some "alice", none⟩, ⟨some "alice", none⟩], GoInt.ofInt 20⟩)]
            k = mapGet exampleMap k :=
  ⟨⟨by decide, by decide, by decide⟩, by decide, by decide,
    (loopBody_attribution exampleGet exampleMap (mkStat "alice" 10) { Company := some "@acme" }
      (by decide)).2 _ (by decide)⟩

/-- C7, as amended: when the profile lookup of a contributor fails and every
stat before it has a successful lookup and carries an author and a total,
`ParseCompanyStats` returns the error of that first failing contributor together
with a nil map; it returns a map and no error exactly when every lookup
succeeds and every stat carries an author and a total; and on stats that all
carry an author and a total, a failing lookup always has such a first failing
contributor, whose error is returned. -/
theorem ParseCompanyStats_error_propagation (Get : String → Except Error User)
    (stats : List (Option ContributorStats)) :
    (∀ pre s post e, stats = pre ++ s :: post →
      (∀ x ∈ pre, lookupOk Get x = true ∧ populated x = true) →
      Get (GetLogin (GetAuthor s)) = .error e →
      ParseCompanyStats stats Get = .ok (none, some e)) ∧
    ((∃ m, ParseCompanyStats stats Get = .ok (some m, none)) ↔
      ∀ s ∈ stats, lookupOk Get s = true ∧ populated s = true) ∧
    ((∀ s ∈ stats, populated s = true) → (∃ s ∈ stats, lookupOk Get s = false) →
      ∃ pre s post e, stats = pre ++ s :: post ∧ (∀ x ∈ pre, lookupOk Get x = true) ∧
        Get (GetLogin (GetAuthor s)) = .error e ∧
        ParseCompanyStats stats Get = .ok (none, some e)) := by
  refine ⟨?_, ⟨?_, ?_⟩, ?_⟩
  · intro pre s post e hsplit hpre he
    rw [hsplit]
    exact aggregate_error Get pre s post e [] hpre he
  · rintro ⟨m, hm⟩ s hs
    exact aggregate_ok_inv Get stats [] m hm s hs
  · intro h
    exact ParseCompanyStats_returns Get stats (fun s hs => (h s hs).2) (fun s hs => (h s hs).1)
  · intro hp hf
    exact aggregate_first_failure Get stats [] hp hf

/-- C7 as amended, on alice, the unknown mallory and bob: the lookup of
mallory is the first to fail and its error is returned with a nil map. -/
theorem ParseCompanyStats_error_propagation_witness :
    failingStats = [mkStat "alice" 10] ++ mkStat "mallory" 3 :: [mkStat "bob" 5] ∧
    (∀ x ∈ [mkStat "alice" 10], lookupOk exampleGet x = true ∧ populated x = true) ∧
    exampleGet (GetLogin (GetAuthor (mkStat "mallory" 3))) =
      .error (Error.other "404 Not Found") ∧
    ParseCompanyStats failingStats exampleGet = .ok (none, some (Error.other "404 Not Found")) :=
  ⟨rfl, by decide, by decide,
    (ParseCompanyStats_error_propagation exampleGet failingStats).1
      [mkStat "alice" 10] (mkStat "mallory" 3) [mkStat "bob" 5] (Error.other "404 Not Found")
      rfl (by decide) (by decide)⟩

/-- C7 as stated fails on a stat without an author: every lookup succeeds, yet
no map is returned (the dereference `*contributor` panics); and when a later
lookup fails, its error is not returned either. -/
theorem ParseCompanyStats_nil_author_panics :
    ((∀ s ∈ [anonymousStat], lookupOk ownerGet s = true) ∧
      ParseCompanyStats [anonymousStat] ownerGet = .error Abort.panic ∧
      ¬ ∃ m, ParseCompanyStats [anonymousStat] ownerGet = .ok (some m, none)) ∧
    ((∃ s ∈ [anonymousStat, mkStat "mallory" 3], lookupOk ownerGet s = false) ∧
      ParseCompanyStats [anonymousStat, mkStat "mallory" 3] ownerGet = .error Abort.panic ∧
      ¬ ∃ e, ParseCompanyStats [anonymousStat, mkStat "mallory" 3] ownerGet =
        .ok (none, some e)) := by
  have h1 : ParseCompanyStats [anonymousStat] ownerGet = .error Abort.panic := by decide
  have h2 : ParseCompanyStats [anonymousStat, mkStat "mallory" 3] ownerGet =
      .error Abort.panic := by decide
  refine ⟨⟨by decide, h1, ?_⟩, ⟨by decide, h2, ?_⟩⟩
  · rintro ⟨m, hm⟩
    rw [h1] at hm
    cases hm
  · rintro ⟨e, he⟩
    rw [h2] at he
    cases he

theorem companyOf_congr (Get : String → Except Error User) (s1 s2 : Option ContributorStats)
    (h : GetAuthor s1 = GetAuthor s2) : companyOf Get s1 = companyOf Get s2 := by
  unfold companyOf
  rw [h]

theorem mem_statsOf (Get : String → Except Error User) (k : String)
    (stats : List (Option ContributorStats)) (s : Option ContributorStats) :
    s ∈ statsOf Get k stats ↔ s ∈ stats ∧ companyOf Get s = some k := by
  simp [statsOf, List.mem_filter]

theorem map_getAuthor_of_populated (ss : List (Option ContributorStats))
    (hp : ∀ s ∈ ss, populated s = true) : (ss.map authorOf).map some = ss.map GetAuthor := by
  induction ss with
  | nil => rfl
  | cons s rest ih =>
    simp only [List.map_cons]
    rw [ih (fun x hx => hp x (List.mem_cons_of_mem _ hx)),
      getAuthor_of_populated s (hp s (List.mem_cons_self _ _))]

/-- C8: for every list of stats whose profile lookups all succeed and every
organization name `k` in the map returned by `ParseCompanyStats`, the
`Contributors` list of `k` is the subsequence, in input order, of the input
contributors whose normalized company is `k`; so every input contributor is in
the list of exactly one organization.  A map is returned whenever every stat
carries an author and a total. -/
theorem ParseCompanyStats_contributors (Get : String → Except Error User)
    (stats : List (Option ContributorStats))
    (hl : ∀ s ∈ stats, lookupOk Get s = true) :
    ((∀ s ∈ stats, populated s = true) →
      ∃ m, ParseCompanyStats stats Get = .ok (some m, none)) ∧
    ∀ m, ParseCompanyStats stats Get = .ok (some m, none) →
      (∀ k v, mapGet m k = some v →
        v.Contributors.map some = (statsOf Get k stats).map GetAuthor) ∧
      (∀ s ∈ stats, ∃ k v, companyOf Get s = some k ∧ mapGet m k = some v ∧
        GetAuthor s ∈ v.Contributors.map some ∧
        ∀ k1 v1, mapGet m k1 = some v1 → GetAuthor s ∈ v1.Contributors.map some → k1 = k) := by
  refine ⟨fun hp => ParseCompanyStats_returns Get stats hp hl, ?_⟩
  intro m hret
  have hp := (ParseCompanyStats_ok_inv Get stats m hret).2
  obtain ⟨m1, hm, hk⟩ := ParseCompanyStats_spec Get stats hp hl
  have hmm := ParseCompanyStats_ok_unique Get stats m1 m hm hret
  subst hmm
  have hsub : ∀ k, ∀ x ∈ statsOf Get k stats, populated x = true :=
    fun k x hx => hp x ((mem_statsOf Get k stats x).mp hx).1
  have hkey : ∀ k v, mapGet m1 k = some v →
      v.Contributors.map some = (statsOf Get k stats).map GetAuthor := by
    intro k v hv
    by_cases hne : statsOf Get k stats = []
    · rw [(hk k).1 hne] at hv
      cases hv
    · rw [(hk k).2 hne] at hv
      cases hv
      exact map_getAuthor_of_populated _ (hsub k)
  refine ⟨hkey, ?_⟩
  intro s hs
  obtain ⟨user, hu⟩ := (lookupOk_iff Get s).mp (hl s hs)
  have hc := companyOf_of_lookup Get s user hu
  have hmem : s ∈ statsOf Get (normalizeCompany (GetCompany user)) stats :=
    (mem_statsOf Get _ stats s).mpr ⟨hs, hc⟩
  have hne : statsOf Get (normalizeCompany (GetCompany user)) stats ≠ [] :=
    List.ne_nil_of_mem hmem
  refine ⟨normalizeCompany (GetCompany user), _, hc, (hk _).2 hne, ?_, ?_⟩
  · simp only
    rw [map_getAuthor_of_populated _ (hsub _)]
    exact List.mem_map_of_mem GetAuthor hmem
  · intro k1 v1 hv1 hin
    rw [hkey k1 v1 hv1] at hin
    obtain ⟨x, hx, hxa⟩ := List.mem_map.mp hin
    have hxk := ((mem_statsOf Get k1 stats x).mp hx).2
    rw [companyOf_congr Get x s hxa, hc] at hxk
    exact (Option.some.inj hxk).symm

/-- C8 on the scenario of the specification: alice (10, "@acme") and bob
(5, "") give "acme" with alice and "No company" with bob. -/
theorem ParseCompanyStats_contributors_witness :
    (∀ s ∈ exampleStats, lookupOk exampleGet s = true) ∧
    ParseCompanyStats exampleStats exampleGet =
      .ok (some [("acme", ⟨"acme", [⟨some "alice", none⟩], GoInt.ofInt 10⟩),
        ("No company", ⟨"No company", [⟨some "bob", none⟩], GoInt.ofInt 5⟩)], none) ∧
    (∀ k v, mapGet exampleResult k = some v →
      v.Contributors.map some = (statsOf exampleGet k exampleStats).map GetAuthor) ∧
    (∀ s ∈ exampleStats, ∃ k v, companyOf exampleGet s = some k ∧
      mapGet exampleResult k = some v ∧ GetAuthor s ∈ v.Contributors.map some ∧
      ∀ k1 v1, mapGet exampleResult k1 = some v1 →
        GetAuthor s ∈ v1.Contributors.map some → k1 = k) :=
  ⟨by decide, by decide,
    (ParseCompanyStats_contributors exampleGet exampleStats (by decide)).2
      exampleResult (by decide)⟩

/-- C9: for every list of stats whose profile lookups all succeed and every
organization name `k` in the map returned by `ParseCompanyStats`, the
`Contributions` of `k` is the sum of `Total` over exactly the input stats whose
normalized company is `k`: as a sum of Go `int`s always, and as an exact integer
whenever that sum fits in an `int`.  A map is returned whenever every stat
carries an author and a total. -/
theorem ParseCompanyStats_contributions (Get : String → Except Error User)
    (stats : List (Option ContributorStats))
    (hl : ∀ s ∈ stats, lookupOk Get s = true) :
    ((∀ s ∈ stats, populated s = true) →
      ∃ m, ParseCompanyStats stats Get = .ok (some m, none)) ∧
    ∀ m, ParseCompanyStats stats Get = .ok (some m, none) →
      ∀ k v, mapGet m k = some v →
        v.Contributions = goSum ((statsOf Get k stats).map totalOf) ∧
        (InInt64 (intSum ((statsOf Get k stats).map totalOf)) →
          v.Contributions.val = intSum ((statsOf Get k stats).map totalOf)) := by
  refine ⟨fun hp => ParseCompanyStats_returns Get stats hp hl, ?_⟩
  intro m hret
  have hp := (ParseCompanyStats_ok_inv Get stats m hret).2
  obtain ⟨m1, hm, hk⟩ := ParseCompanyStats_spec Get stats hp hl
  have hmm := ParseCompanyStats_ok_unique Get stats m1 m hm hret
  subst hmm
  intro k v hv
  have hc : v.Contributions = goSum ((statsOf Get k stats).map totalOf) := by
    by_cases hne : statsOf Get k stats = []
    · rw [(hk k).1 hne] at hv
      cases hv
    · rw [(hk k).2 hne] at hv
      cases hv
      rfl
  refine ⟨hc, fun hfit => ?_⟩
  rw [hc, goSum_val]
  exact wrapInt_of_inInt64 _ hfit

/-- C9 on alice (10), bob (5) and carol (7): "acme", the company of alice and
carol, has 17 contributions. -/
theorem ParseCompanyStats_contributions_witness :
    (∀ s ∈ sharedStats, lookupOk exampleGet s = true) ∧
    ParseCompanyStats sharedStats exampleGet = .ok (some sharedResult, none) ∧
    mapGet sharedResult "acme" =
      some ⟨"acme", [⟨some "alice", none⟩, ⟨some "carol", none⟩], GoInt.ofInt 17⟩ ∧
    GoInt.ofInt 17 = goSum ((statsOf exampleGet "acme" sharedStats).map totalOf) ∧
    (InInt64 (intSum ((statsOf exampleGet "acme" sharedStats).map totalOf)) →
      (GoInt.ofInt 17).val = intSum ((statsOf exampleGet "acme" sharedStats).map totalOf)) :=
  ⟨by decide, by decide, by decide,
    (ParseCompanyStats_contributions exampleGet sharedStats (by decide)).2
      sharedResult (by decide) "acme"
      ⟨"acme", [⟨some "alice", none⟩, ⟨some "carol", none⟩], GoInt.ofInt 17⟩ (by decide)⟩

/-! ## Report printer and `main` -/

/-- C10: the slice `sortedCompanies` that `main` builds for the report is a
rearrangement of the values of the aggregated map, and in every adjacent pair
the earlier entry has at least the `Contributions` of the later one.  This holds
for every order in which `range` visits the map and every `sort.Slice` that
meets its contract. -/
theorem sortedCompanies_sorted (env : Env) (compStats : CompanyMap)
    (hrange : (env.rangeOrder compStats).Perm compStats)
    (hsort : SortsBy env.sortSlice moreContributions) :
    (sortedCompanies env compStats).Perm (compStats.map (fun e => e.2)) ∧
      List.Chain' (fun a b => b.Contributions.val ≤ a.Contributions.val)
        (sortedCompanies env compStats) := by
  obtain ⟨hperm, hchain⟩ := hsort ((env.rangeOrder compStats).map (fun e => e.2))
  refine ⟨hperm.trans (hrange.map _), hchain.imp ?_⟩
  intro a b h
  unfold moreContributions at h
  simp only [decide_eq_false_iff_not] at h
  omega

/-- C10 on the scenario of the specification with the insertion sort of the
library: "acme" (10) comes before "No company" (5). -/
theorem sortedCompanies_sorted_witness :
    sortedCompanies (exampleEnv "github.com/acme/widgets" [] ([], none)) exampleMap =
      [⟨"acme", [⟨some "alice", none⟩], GoInt.ofInt 10⟩,
        ⟨"No company", [⟨some "bob", none⟩], GoInt.ofInt 5⟩] ∧
    ((exampleEnv "github.com/acme/widgets" [] ([], none)).rangeOrder exampleMap).Perm
      exampleMap ∧
    SortsBy (exampleEnv "github.com/acme/widgets" [] ([], none)).sortSlice moreContributions ∧
    (sortedCompanies (exampleEnv "github.com/acme/widgets" [] ([], none)) exampleMap).Perm
      (exampleMap.map (fun e => e.2)) ∧
    List.Chain' (fun a b => b.Contributions.val ≤ a.Contributions.val)
      (sortedCompanies (exampleEnv "github.com/acme/widgets" [] ([], none)) exampleMap) :=
  ⟨by decide, List.Perm.refl _, insertionSort_moreContributions,
    sortedCompanies_sorted (exampleEnv "github.com/acme/widgets" [] ([], none)) exampleMap
      (List.Perm.refl _) insertionSort_moreContributions⟩

/-- C2, the code at the failing input: when the first statistics read returns
no stats and an error other than the "not ready" signal, `main` leaves the
loop, never looks at the error, prints the report of an empty aggregation and
ends with exit status 0; the error is not logged. -/
theorem main_ignores_stats_error (env : Env) (prog url author repo msg : String) (fuel : Nat)
    (hargs : env.args = [prog, url]) (hurl : ParseUrl url = .ok (author, repo))
    (hread : env.ListContributorsStats (newClient env.token) author repo 0 =
      ([], some (Error.other msg))) :
    main env (fuel + 1) =
      some { log := [tokenLog env.token], stdout := report env author repo [] [],
             reads := 1, sleeps := [], exit := 0 } := by
  unfold main
  simp only [hargs, List.length_cons, List.length_nil, List.getD_cons_succ, List.getD_cons_zero,
    hurl, pollLoop, hread]
  rfl

/-- C2 on a read that is refused with "403 rate limit exceeded": the run ends
with exit status 0 after printing a report with 0 contributors and 0 companies. -/
theorem main_ignores_stats_error_witness :
    (exampleEnv "github.com/acme/widgets" []
      ([], some (Error.other "403 rate limit exceeded"))).args =
        ["github-meta-analytics", "github.com/acme/widgets"] ∧
    ParseUrl "github.com/acme/widgets" = .ok ("acme", "widgets") ∧
    main (exampleEnv "github.com/acme/widgets" []
        ([], some (Error.other "403 rate limit exceeded"))) 1 =
      some { log := ["No GITHUB_TOKEN found in environment, you might get rate limited!"],
             stdout := [Line.header "acme" "widgets", Line.totalContributors 0,
               Line.totalCompanies 0, Line.title],
             reads := 1, sleeps := [], exit := 0 } :=
  ⟨rfl, by decide,
    (main_ignores_stats_error
      (exampleEnv "github.com/acme/widgets" [] ([], some (Error.other "403 rate limit exceeded")))
      "github-meta-analytics" "github.com/acme/widgets" "acme" "widgets"
      "403 rate limit exceeded" 0 rfl (by decide) rfl).trans (by decide)⟩

/-! ## Affiliation aggregator: the shape of the map -/

theorem mapGet_eq_none_iff (m : CompanyMap) (k : String) :
    mapGet m k = none ↔ k ∉ keysOf m := by
  induction m with
  | nil => simp [mapGet, keysOf]
  | cons e rest ih =>
    obtain ⟨k1, v1⟩ := e
    by_cases h : k1 = k
    · simp [mapGet, keysOf, h]
    · have h2 : ¬ k = k1 := fun hh => h hh.symm
      simp only [keysOf] at ih
      simp [mapGet, keysOf, h, h2, ih]

theorem keysOf_mapSet_of_mem (m : CompanyMap) (k : String) (v : CompanyStats)
    (h : k ∈ keysOf m) : keysOf (mapSet m k v) = keysOf m := by
  induction m with
  | nil => simp [keysOf] at h
  | cons e rest ih =>
    obtain ⟨k1, v1⟩ := e
    by_cases h1 : k1 = k
    · simp [mapSet, keysOf, h1]
    · have h2 : k ∈ keysOf rest := by
        simp only [keysOf, List.map_cons, List.mem_cons] at h
        rcases h with h | h
        · exact absurd h.symm h1
        · exact h
      have ih1 := ih h2
      simp only [keysOf] at ih1
      simp [mapSet, keysOf, h1, ih1]

theorem keysOf_mapSet_of_not_mem (m : CompanyMap) (k : String) (v : CompanyStats)
    (h : k ∉ keysOf m) : keysOf (mapSet m k v) = keysOf m ++ [k] := by
  induction m with
  | nil => simp [mapSet, keysOf]
  | cons e rest ih =>
    obtain ⟨k1, v1⟩ := e
    simp only [keysOf, List.map_cons, List.mem_cons, not_or] at h
    have h1 : ¬ k1 = k := fun hh => h.1 hh.symm
    have ih1 := ih h.2
    simp only [keysOf] at ih1
    simp [mapSet, keysOf, h1, ih1]

theorem nodup_keysOf_mapSet (m : CompanyMap) (k : String) (v : CompanyStats)
    (h : (keysOf m).Nodup) : (keysOf (mapSet m k v)).Nodup := by
  by_cases hk : k ∈ keysOf m
  · rw [keysOf_mapSet_of_mem m k v hk]
    exact h
  · rw [keysOf_mapSet_of_not_mem m k v hk]
    exact List.Nodup.append h (List.nodup_singleton k) (by
      intro a ha hb
      rw [List.mem_singleton] at hb
      exact hk (hb ▸ ha))

theorem mem_iff_mapGet (m : CompanyMap) (h : (keysOf m).Nodup) (k : String)
    (v : CompanyStats) : (k, v) ∈ m ↔ mapGet m k = some v := by
  induction m with
  | nil => simp [mapGet]
  | cons e rest ih =>
    obtain ⟨k1, v1⟩ := e
    have hn : k1 ∉ keysOf rest ∧ (keysOf rest).Nodup := by
      simpa [keysOf] using h
    by_cases h1 : k1 = k
    · subst h1
      have hnot : ∀ w, (k1, w) ∉ rest := by
        intro w hw
        apply hn.1
        simp only [keysOf, List.mem_map]
        exact ⟨(k1, w), hw, rfl⟩
      simp only [mapGet, if_true, List.mem_cons, Prod.mk.injEq, true_and, Option.some.injEq]
      constructor
      · rintro (hv | hv)
        · exact hv.symm
        · exact absurd hv (hnot v)
      · intro hv
        exact Or.inl hv.symm
    · simp only [mapGet, h1, if_false, List.mem_cons, Prod.mk.injEq]
      rw [← ih hn.2]
      constructor
      · rintro (hv | hv)
        · exact absurd hv.1.symm h1
        · exact hv
      · intro hv
        exact Or.inr hv

theorem aggregate_keys_nodup (Get : String → Except Error User)
    (stats : List (Option ContributorStats)) (m0 m : CompanyMap)
    (h0 : (keysOf m0).Nodup) (h : aggregate Get stats m0 = .ok (some m, none)) :
    (keysOf m).Nodup := by
  induction stats generalizing m0 with
  | nil =>
    simp only [aggregate, Except.ok.injEq, Prod.mk.injEq, Option.some.injEq, and_true] at h
    rw [← h]
    exact h0
  | cons s rest ih =>
    obtain ⟨hl, hp⟩ := aggregate_ok_inv Get (s :: rest) m0 m h s (List.mem_cons_self _ _)
    obtain ⟨user, hu⟩ := (lookupOk_iff Get s).mp hl
    simp only [aggregate, loopBody_of_populated Get m0 s user hu hp] at h
    exact ih _ (nodup_keysOf_mapSet m0 _ _ h0) h

theorem statsOf_ne_nil_iff (Get : String → Except Error User) (k : String)
    (stats : List (Option ContributorStats)) :
    statsOf Get k stats ≠ [] ↔ ∃ s ∈ stats, companyOf Get s = some k := by
  constructor
  · intro h
    obtain ⟨s, hs⟩ := List.exists_mem_of_ne_nil _ h
    exact ⟨s, (mem_statsOf Get k stats s).mp hs⟩
  · rintro ⟨s, hs, hc⟩
    exact List.ne_nil_of_mem ((mem_statsOf Get k stats s).mpr ⟨hs, hc⟩)

theorem mem_namesOf (Get : String → Except Error User) (k : String)
    (stats : List (Option ContributorStats)) :
    k ∈ namesOf Get stats ↔ ∃ s ∈ stats, companyOf Get s = some k := by
  simp [namesOf, List.mem_filterMap]

/-- The map that `ParseCompanyStats` returns, as a whole: its keys are distinct,
its entries are its lookups, and a key is present exactly for the names of the
input. -/
theorem ParseCompanyStats_shape (Get : String → Except Error User)
    (stats : List (Option ContributorStats)) (m : CompanyMap)
    (h : ParseCompanyStats stats Get = .ok (some m, none)) :
    (keysOf m).Nodup ∧
    (∀ k v, (k, v) ∈ m ↔ mapGet m k = some v) ∧
    (∀ k, statsOf Get k stats = [] → mapGet m k = none) ∧
    (∀ k, statsOf Get k stats ≠ [] → mapGet m k =
      some { Name := k, Contributors := (statsOf Get k stats).map authorOf,
             Contributions := goSum ((statsOf Get k stats).map totalOf) }) ∧
    (keysOf m).Perm (namesOf Get stats).dedup := by
  obtain ⟨hl, hp⟩ := ParseCompanyStats_ok_inv Get stats m h
  obtain ⟨m1, hm1, hk⟩ := ParseCompanyStats_spec Get stats hp hl
  have hmm := ParseCompanyStats_ok_unique Get stats m1 m hm1 h
  subst hmm
  have hnd : (keysOf m1).Nodup :=
    aggregate_keys_nodup Get stats [] m1 (by simp [keysOf]) h
  refine ⟨hnd, mem_iff_mapGet m1 hnd, fun k => (hk k).1, fun k => (hk k).2, ?_⟩
  rw [List.perm_ext_iff_of_nodup hnd (List.nodup_dedup _)]
  intro k
  rw [List.mem_dedup, mem_namesOf, ← statsOf_ne_nil_iff]
  constructor
  · intro hmem hnil
    exact (mapGet_eq_none_iff m1 k).mp ((hk k).1 hnil) hmem
  · intro hne
    by_contra hnot
    have hnone := (mapGet_eq_none_iff m1 k).mpr hnot
    rw [(hk k).2 hne] at hnone
    cases hnone

/-- C11: the map returned by `ParseCompanyStats` has exactly one entry per
distinct normalized organization name of the input: its keys are pairwise
distinct, a key `k` is present exactly when some input contributor has
normalized company `k`, the entry under `k` has `Name` equal to `k`, and the
number of entries, which `main` prints as "Total companies", is the number of
distinct normalized names.  A map is returned whenever every stat carries an
author and a total. -/
theorem ParseCompanyStats_keys (Get : String → Except Error User)
    (stats : List (Option ContributorStats))
    (hl : ∀ s ∈ stats, lookupOk Get s = true) :
    ((∀ s ∈ stats, populated s = true) →
      ∃ m, ParseCompanyStats stats Get = .ok (some m, none)) ∧
    ∀ m, ParseCompanyStats stats Get = .ok (some m, none) →
      (keysOf m).Nodup ∧
      (∀ k v, (k, v) ∈ m ↔ mapGet m k = some v) ∧
      (∀ k, (∃ v, mapGet m k = some v) ↔ ∃ s ∈ stats, companyOf Get s = some k) ∧
      (∀ k v, mapGet m k = some v → v.Name = k) ∧
      m.length = (namesOf Get stats).dedup.length ∧
      ∀ env author repo, (report env author repo stats m).get? 2 =
        some (Line.totalCompanies (namesOf Get stats).dedup.length) := by
  refine ⟨fun hp => ParseCompanyStats_returns Get stats hp hl, ?_⟩
  intro m hret
  obtain ⟨hnd, hmem, hnone, hsome, hperm⟩ := ParseCompanyStats_shape Get stats m hret
  have hlen : m.length = (namesOf Get stats).dedup.length := by
    have := hperm.length_eq
    simpa [keysOf] using this
  refine ⟨hnd, hmem, ?_, ?_, hlen, ?_⟩
  · intro k
    rw [← statsOf_ne_nil_iff]
    constructor
    · rintro ⟨v, hv⟩ hnil
      rw [hnone k hnil] at hv
      cases hv
    · intro hne
      exact ⟨_, hsome k hne⟩
  · intro k v hv
    by_cases hnil : statsOf Get k stats = []
    · rw [hnone k hnil] at hv
      cases hv
    · rw [hsome k hnil] at hv
      cases hv
      rfl
  · intro env author repo
    simp [report, hlen]

/-- C11 on alice, bob and carol: the three contributors have the two distinct
names "acme" and "No company", and the map has these two entries. -/
theorem ParseCompanyStats_keys_witness :
    (∀ s ∈ sharedStats, lookupOk exampleGet s = true) ∧
    ParseCompanyStats sharedStats exampleGet = .ok (some sharedResult, none) ∧
    namesOf exampleGet sharedStats = ["acme", "No company", "acme"] ∧
    keysOf sharedResult = ["acme", "No company"] ∧
    (keysOf sharedResult).Nodup ∧
    (∀ k v, (k, v) ∈ sharedResult ↔ mapGet sharedResult k = some v) ∧
    (∀ k, (∃ v, mapGet sharedResult k = some v) ↔
      ∃ s ∈ sharedStats, companyOf exampleGet s = some k) ∧
    (∀ k v, mapGet sharedResult k = some v → v.Name = k) ∧
    sharedResult.length = (namesOf exampleGet sharedStats).dedup.length ∧
    ∀ env author repo, (report env author repo sharedStats sharedResult).get? 2 =
      some (Line.totalCompanies (namesOf exampleGet sharedStats).dedup.length) :=
  ⟨by decide, by decide, by decide, by decide,
    (ParseCompanyStats_keys exampleGet sharedStats (by decide)).2 sharedResult (by decide)⟩

/-! ## Statistics poller -/

theorem pollLoop_step_accepted (read : Nat → StatsResponse) (fuel : Nat) (st : PollState)
    (h : (read st.reads).2 = some Error.accepted) :
    pollLoop read (fuel + 1) st =
      pollLoop read fuel
        { log := st.log ++ ["scheduled on GitHub side"], reads := st.reads + 1,
          sleeps := st.sleeps ++ [3] } := by
  simp only [pollLoop, h]

theorem pollLoop_step_other (read : Nat → StatsResponse) (fuel : Nat) (st : PollState)
    (h : (read st.reads).2 ≠ some Error.accepted) :
    pollLoop read (fuel + 1) st =
      some ({ log := st.log, reads := st.reads + 1, sleeps := st.sleeps }, read st.reads) := by
  cases hm : (read st.reads).2 with
  | none => simp only [pollLoop, hm]
  | some e =>
    cases e with
    | accepted => exact absurd hm h
    | other msg => simp only [pollLoop, hm]

/-- The loop from any state: after `n` "not ready" answers and one other answer
it has ended, and with less fuel it is still running. -/
theorem pollLoop_after (read : Nat → StatsResponse) (n : Nat) (st : PollState)
    (hwait : ∀ i, i < n → (read (st.reads + i)).2 = some Error.accepted)
    (hr : (read (st.reads + n)).2 ≠ some Error.accepted) (fuel : Nat) :
    (n < fuel → pollLoop read fuel st =
      some ({ log := st.log ++ List.replicate n "scheduled on GitHub side",
              reads := st.reads + n + 1,
              sleeps := st.sleeps ++ List.replicate n 3 }, read (st.reads + n))) ∧
    (fuel ≤ n → pollLoop read fuel st = none) := by
  induction n generalizing st fuel with
  | zero =>
    refine ⟨fun hf => ?_, fun hf => ?_⟩
    · obtain ⟨f, rfl⟩ : ∃ f, fuel = f + 1 := ⟨fuel - 1, by omega⟩
      rw [pollLoop_step_other read f st (by simpa using hr)]
      simp
    · have : fuel = 0 := by omega
      subst this
      rfl
  | succ n ih =>
    have h0 : (read st.reads).2 = some Error.accepted := by
      simpa using hwait 0 (by omega)
    cases fuel with
    | zero => exact ⟨fun hf => by omega, fun _ => rfl⟩
    | succ f =>
      rw [pollLoop_step_accepted read f st h0]
      have ih1 := ih
        { log := st.log ++ ["scheduled on GitHub side"], reads := st.reads + 1,
          sleeps := st.sleeps ++ [3] }
        (fun i hi => by
          have := hwait (i + 1) (by omega)
          rw [show st.reads + (i + 1) = st.reads + 1 + i by omega] at this
          exact this)
        (by
          rw [show st.reads + (n + 1) = st.reads + 1 + n by omega] at hr
          exact hr) f
      refine ⟨fun hf => ?_, fun hf => ih1.2 (by omega)⟩
      rw [ih1.1 (by omega)]
      simp only [List.replicate_succ, List.append_assoc, List.singleton_append,
        show st.reads + 1 + n + 1 = st.reads + (n + 1) + 1 by omega,
        show st.reads + 1 + n = st.reads + (n + 1) by omega]

theorem pollLoop_exit (read : Nat → StatsResponse) (fuel : Nat) (st st1 : PollState)
    (resp : StatsResponse) (h : pollLoop read fuel st = some (st1, resp)) :
    resp.2 ≠ some Error.accepted := by
  induction fuel generalizing st with
  | zero => cases h
  | succ f ih =>
    by_cases ha : (read st.reads).2 = some Error.accepted
    · rw [pollLoop_step_accepted read f st ha] at h
      exact ih _ h
    · rw [pollLoop_step_other read f st ha] at h
      simp only [Option.some.injEq, Prod.mk.injEq] at h
      rw [← h.2]
      exact ha

/-- C12: when the statistics read answers `n` times in a row with the "not
ready" signal and then with a response `r` that is not that signal, the polling
loop of `main` performs exactly `n + 1` reads, sleeps exactly `n` times for 3
seconds each and is left with the stats and the error of `r`; before that it is
still running, and a "not ready" answer never ends it.  The run of `main`
records the same reads and sleeps. -/
theorem pollLoop_reads_and_sleeps (env : Env) (prog url author repo : String) (n : Nat)
    (hargs : env.args = [prog, url]) (hurl : ParseUrl url = .ok (author, repo))
    (hwait : ∀ i, i < n →
      (env.ListContributorsStats (newClient env.token) author repo i).2 = some Error.accepted)
    (hr : (env.ListContributorsStats (newClient env.token) author repo n).2 ≠
      some Error.accepted) :
    (∀ fuel, n < fuel →
      pollLoop (env.ListContributorsStats (newClient env.token) author repo) fuel
          { log := [tokenLog env.token], reads := 0, sleeps := [] } =
        some ({ log := tokenLog env.token :: List.replicate n "scheduled on GitHub side",
                reads := n + 1, sleeps := List.replicate n 3 },
          env.ListContributorsStats (newClient env.token) author repo n)) ∧
    (∀ fuel, fuel ≤ n →
      pollLoop (env.ListContributorsStats (newClient env.token) author repo) fuel
          { log := [tokenLog env.token], reads := 0, sleeps := [] } = none) ∧
    (∀ read fuel st st1 resp, pollLoop read fuel st = some (st1, resp) →
      resp.2 ≠ some Error.accepted) ∧
    (∀ fuel, n < fuel → ∃ run, main env fuel = some run ∧ run.reads = n + 1 ∧
      run.sleeps = List.replicate n 3) ∧
    (∀ fuel, fuel ≤ n → main env fuel = none) := by
  have hpoll := pollLoop_after (env.ListContributorsStats (newClient env.token) author repo) n
    { log := [tokenLog env.token], reads := 0, sleeps := [] }
    (fun i hi => by simpa using hwait i hi) (by simpa using hr)
  have hdone : ∀ fuel, n < fuel →
      pollLoop (env.ListContributorsStats (newClient env.token) author repo) fuel
          { log := [tokenLog env.token], reads := 0, sleeps := [] } =
        some ({ log := tokenLog env.token :: List.replicate n "scheduled on GitHub side",
                reads := n + 1, sleeps := List.replicate n 3 },
          env.ListContributorsStats (newClient env.token) author repo n) := by
    intro fuel hf
    rw [(hpoll fuel).1 hf]
    simp
  refine ⟨hdone, fun fuel hf => (hpoll fuel).2 hf, pollLoop_exit, ?_, ?_⟩
  · intro fuel hf
    unfold main
    simp only [hargs, List.length_cons, List.length_nil, List.getD_cons_succ,
      List.getD_cons_zero, hurl, hdone fuel hf]
    cases hres : ParseCompanyStats
        (env.ListContributorsStats (newClient env.token) author repo n).1
        (env.UsersGet (newClient env.token)) with
    | error a => exact ⟨_, rfl, rfl, rfl⟩
    | ok p =>
      obtain ⟨cs, oe⟩ := p
      cases oe with
      | none => exact ⟨_, rfl, rfl, rfl⟩
      | some e => exact ⟨_, rfl, rfl, rfl⟩
  · intro fuel hf
    unfold main
    simp only [hargs, List.length_cons, List.length_nil, List.getD_cons_succ,
      List.getD_cons_zero, hurl, (hpoll fuel).2 hf]
    rfl

/-- C12 on two "not ready" answers followed by the stats of alice and bob: three
reads, two sleeps of 3 seconds, and the report of the third answer. -/
theorem pollLoop_reads_and_sleeps_witness :
    main (exampleEnv "github.com/acme/widgets"
        [([], some Error.accepted), ([], some Error.accepted)] (exampleStats, none)) 3 =
      some { log := ["No GITHUB_TOKEN found in environment, you might get rate limited!",
                     "scheduled on GitHub side", "scheduled on GitHub side"],
             stdout := [Line.header "acme" "widgets", Line.totalContributors 2,
               Line.totalCompanies 2, Line.title,
               Line.company ⟨"acme", [⟨some "alice", none⟩], GoInt.ofInt 10⟩,
               Line.company ⟨"No company", [⟨some "bob", none⟩], GoInt.ofInt 5⟩],
             reads := 3, sleeps := [3, 3], exit := 0 } ∧
    main (exampleEnv "github.com/acme/widgets"
        [([], some Error.accepted), ([], some Error.accepted)] (exampleStats, none)) 2 = none ∧
    ∃ run, main (exampleEnv "github.com/acme/widgets"
        [([], some Error.accepted), ([], some Error.accepted)] (exampleStats, none)) 3 =
        some run ∧ run.reads = 2 + 1 ∧ run.sleeps = List.replicate 2 3 :=
  ⟨by decide,
    (pollLoop_reads_and_sleeps
      (exampleEnv "github.com/acme/widgets"
        [([], some Error.accepted), ([], some Error.accepted)] (exampleStats, none))
      "github-meta-analytics" "github.com/acme/widgets" "acme" "widgets" 2 rfl (by decide)
      (by decide) (by decide)).2.2.2.2 2 (Nat.le_refl 2),
    (pollLoop_reads_and_sleeps
      (exampleEnv "github.com/acme/widgets"
        [([], some Error.accepted), ([], some Error.accepted)] (exampleStats, none))
      "github-meta-analytics" "github.com/acme/widgets" "acme" "widgets" 2 rfl (by decide)
      (by decide) (by decide)).2.2.2.1 3 (by decide)⟩

/-! ## Affiliation aggregator: determinism and input order -/

theorem loopBody_congr (Get1 Get2 : String → Except Error User) (m : CompanyMap)
    (stat : Option ContributorStats)
    (h : Get1 (GetLogin (GetAuthor stat)) = Get2 (GetLogin (GetAuthor stat))) :
    loopBody Get1 m stat = loopBody Get2 m stat := by
  unfold loopBody
  simp only [h]

theorem aggregate_congr (Get1 Get2 : String → Except Error User)
    (stats : List (Option ContributorStats)) (m0 : CompanyMap)
    (h : ∀ s ∈ stats, Get1 (GetLogin (GetAuthor s)) = Get2 (GetLogin (GetAuthor s))) :
    aggregate Get1 stats m0 = aggregate Get2 stats m0 := by
  induction stats generalizing m0 with
  | nil => rfl
  | cons s rest ih =>
    simp only [aggregate, loopBody_congr Get1 Get2 m0 s (h s (List.mem_cons_self _ _))]
    cases hb : loopBody Get2 m0 s with
    | error a => rfl
    | ok r =>
      cases r with
      | error e => rfl
      | ok m1 => exact ih m1 (fun x hx => h x (List.mem_cons_of_mem _ hx))

/-- C13: aggregation is deterministic.  Two runs of `ParseCompanyStats` on the
same list, in the same order, with profile lookups that answer alike on the
logins of the list, have the same outcome; when they return maps, the maps have
the same keys and, per key, identical `Contributions` and identical
`Contributors` lists. -/
theorem ParseCompanyStats_deterministic (Get1 Get2 : String → Except Error User)
    (stats : List (Option ContributorStats))
    (hsame : ∀ s ∈ stats, Get1 (GetLogin (GetAuthor s)) = Get2 (GetLogin (GetAuthor s))) :
    ParseCompanyStats stats Get1 = ParseCompanyStats stats Get2 ∧
    ∀ m1 m2, ParseCompanyStats stats Get1 = .ok (some m1, none) →
      ParseCompanyStats stats Get2 = .ok (some m2, none) →
      (∀ k, (∃ v, mapGet m1 k = some v) ↔ ∃ v, mapGet m2 k = some v) ∧
      ∀ k v1 v2, mapGet m1 k = some v1 → mapGet m2 k = some v2 →
        v1.Contributions = v2.Contributions ∧ v1.Contributors = v2.Contributors := by
  have heq : ParseCompanyStats stats Get1 = ParseCompanyStats stats Get2 :=
    aggregate_congr Get1 Get2 stats [] hsame
  refine ⟨heq, ?_⟩
  intro m1 m2 h1 h2
  rw [heq, h2] at h1
  simp only [Except.ok.injEq, Prod.mk.injEq, Option.some.injEq, and_true] at h1
  subst h1
  refine ⟨fun k => Iff.rfl, ?_⟩
  intro k v1 v2 hv1 hv2
  rw [hv1] at hv2
  cases hv2
  exact ⟨rfl, rfl⟩

/-- C13 on the scenario of the specification, run once with the anonymous
profile service and once with that of an authenticated client: both answer
alike for alice and bob, and both runs return the same map. -/
theorem ParseCompanyStats_deterministic_witness :
    (∀ s ∈ exampleStats,
      exampleGet (GetLogin (GetAuthor s)) = ownerGet (GetLogin (GetAuthor s))) ∧
    ParseCompanyStats exampleStats exampleGet = .ok (some exampleResult, none) ∧
    ParseCompanyStats exampleStats exampleGet = ParseCompanyStats exampleStats ownerGet :=
  ⟨by decide, by decide,
    (ParseCompanyStats_deterministic exampleGet ownerGet exampleStats (by decide)).1⟩

theorem statsOf_perm (Get : String → Except Error User) (k : String)
    (stats1 stats2 : List (Option ContributorStats)) (h : stats1.Perm stats2) :
    (statsOf Get k stats1).Perm (statsOf Get k stats2) :=
  h.filter _

theorem goSum_perm (xs ys : List GoInt) (h : xs.Perm ys) : goSum xs = goSum ys := by
  apply GoInt.ext_val
  rw [goSum_val, goSum_val]
  unfold intSum
  rw [(h.map Subtype.val).sum_eq]

/-- C14: aggregation does not depend on the order of the input.  For a list of
stats whose profile lookups all succeed and every rearrangement of it,
`ParseCompanyStats` returns a map for the one exactly when it does for the
other; the two maps have the same keys, per key the same `Contributions`, and
per key `Contributors` lists that are rearrangements of each other. -/
theorem ParseCompanyStats_perm (Get : String → Except Error User)
    (stats1 stats2 : List (Option ContributorStats)) (hperm : stats1.Perm stats2)
    (hl : ∀ s ∈ stats1, lookupOk Get s = true) :
    ((∀ s ∈ stats1, populated s = true) →
      ∃ m1, ParseCompanyStats stats1 Get = .ok (some m1, none)) ∧
    ((∃ m1, ParseCompanyStats stats1 Get = .ok (some m1, none)) ↔
      ∃ m2, ParseCompanyStats stats2 Get = .ok (some m2, none)) ∧
    ∀ m1 m2, ParseCompanyStats stats1 Get = .ok (some m1, none) →
      ParseCompanyStats stats2 Get = .ok (some m2, none) →
      (keysOf m1).Perm (keysOf m2) ∧
      (∀ k, (∃ v, mapGet m1 k = some v) ↔ ∃ v, mapGet m2 k = some v) ∧
      ∀ k v1 v2, mapGet m1 k = some v1 → mapGet m2 k = some v2 →
        v1.Contributions = v2.Contributions ∧ v1.Contributors.Perm v2.Contributors := by
  refine ⟨fun hp => ParseCompanyStats_returns Get stats1 hp hl, ⟨?_, ?_⟩, ?_⟩
  · rintro ⟨m1, h1⟩
    obtain ⟨hl1, hp1⟩ := ParseCompanyStats_ok_inv Get stats1 m1 h1
    exact ParseCompanyStats_returns Get stats2
      (fun s hs => hp1 s (hperm.mem_iff.mpr hs)) (fun s hs => hl1 s (hperm.mem_iff.mpr hs))
  · rintro ⟨m2, h2⟩
    obtain ⟨hl2, hp2⟩ := ParseCompanyStats_ok_inv Get stats2 m2 h2
    exact ParseCompanyStats_returns Get stats1
      (fun s hs => hp2 s (hperm.mem_iff.mp hs)) (fun s hs => hl2 s (hperm.mem_iff.mp hs))
  · intro m1 m2 h1 h2
    obtain ⟨_, _, hnone1, hsome1, hkeys1⟩ := ParseCompanyStats_shape Get stats1 m1 h1
    obtain ⟨_, _, hnone2, hsome2, hkeys2⟩ := ParseCompanyStats_shape Get stats2 m2 h2
    have hnames : (namesOf Get stats1).dedup.Perm (namesOf Get stats2).dedup :=
      (hperm.filterMap (companyOf Get)).dedup
    have hnil : ∀ k, statsOf Get k stats1 = [] ↔ statsOf Get k stats2 = [] := by
      intro k
      have hp := statsOf_perm Get k stats1 stats2 hperm
      constructor
      · intro h
        rw [h] at hp
        exact List.Perm.eq_nil hp.symm
      · intro h
        rw [h] at hp
        exact List.Perm.eq_nil hp
    have hpresent : ∀ k, (∃ v, mapGet m1 k = some v) ↔ ∃ v, mapGet m2 k = some v := by
      intro k
      by_cases hk : statsOf Get k stats1 = []
      · rw [hnone1 k hk, hnone2 k ((hnil k).mp hk)]
      · rw [hsome1 k hk, hsome2 k (fun h => hk ((hnil k).mpr h))]
        exact ⟨fun _ => ⟨_, rfl⟩, fun _ => ⟨_, rfl⟩⟩
    refine ⟨(hkeys1.trans hnames).trans hkeys2.symm, hpresent, ?_⟩
    intro k v1 v2 hv1 hv2
    by_cases hk : statsOf Get k stats1 = []
    · rw [hnone1 k hk] at hv1
      cases hv1
    · rw [hsome1 k hk] at hv1
      rw [hsome2 k (fun h => hk ((hnil k).mpr h))] at hv2
      cases hv1
      cases hv2
      have hp := statsOf_perm Get k stats1 stats2 hperm
      exact ⟨goSum_perm _ _ (hp.map totalOf), hp.map authorOf⟩

/-- C14 on alice, bob and carol against carol, bob and alice: "acme" has 17
contributions either way, with its contributors in the order of the input. -/
theorem ParseCompanyStats_perm_witness :
    sharedStats.Perm [mkStat "carol" 7, mkStat "bob" 5, mkStat "alice" 10] ∧
    (∀ s ∈ sharedStats, lookupOk exampleGet s = true) ∧
    ParseCompanyStats sharedStats exampleGet = .ok (some sharedResult, none) ∧
    ParseCompanyStats [mkStat "carol" 7, mkStat "bob" 5, mkStat "alice" 10] exampleGet =
      .ok (some [("acme", ⟨"acme", [⟨some "carol", none⟩, ⟨some "alice", none⟩], GoInt.ofInt 17⟩),
        ("No company", ⟨"No company", [⟨some "bob", none⟩], GoInt.ofInt 5⟩)], none) ∧
    (keysOf sharedResult).Perm
      (keysOf [("acme", ⟨"acme", [⟨some "carol", none⟩, ⟨some "alice", none⟩], GoInt.ofInt 17⟩),
        ("No company", ⟨"No company", [⟨some "bob", none⟩], GoInt.ofInt 5⟩)]) :=
  ⟨(List.reverse_perm _).symm, by decide, by decide, by decide,
    ((ParseCompanyStats_perm exampleGet sharedStats
      [mkStat "carol" 7, mkStat "bob" 5, mkStat "alice" 10]
      (List.reverse_perm _).symm (by decide)).2.2 _ _ (by decide) (by decide)).1⟩

/-! ## Affiliation aggregator: corner cases of the normalization -/

theorem normalizeCompany_eq_empty_iff (c : String) : normalizeCompany c = "" ↔ c = "@" := by
  obtain ⟨cs⟩ := c
  cases cs with
  | nil =>
    constructor
    · intro h
      exact absurd h (by decide)
    · intro h
      exact absurd h (by decide)
  | cons ch rest =>
    by_cases hc : ch = '@'
    · subst hc
      rw [normalizeCompany_at]
      rw [String.ext_iff, String.ext_iff]
      simp
    · rw [normalizeCompany_other _ (by rw [Ne, String.ext_iff]; simp) (by simp [hc])]
      rw [String.ext_iff, String.ext_iff]
      simp [hc]

theorem ParseCompanyStats_single (Get : String → Except Error User)
    (stat : Option ContributorStats) (user : User)
    (hget : Get (GetLogin (GetAuthor stat)) = .ok user) (hp : populated stat = true) :
    ParseCompanyStats [stat] Get =
      .ok (some [(normalizeCompany (GetCompany user),
        credit none (normalizeCompany (GetCompany user)) stat)], none) := by
  unfold ParseCompanyStats
  simp only [aggregate, loopBody_of_populated Get [] stat user hget hp]
  rfl

/-- C15: the normalization inside `ParseCompanyStats` removes one leading `'@'`
and nothing more, and the name it yields is never replaced by the sentinel.  On
a single contributor whose profile declares the company `c`, the returned map
has one entry; its name is `c` without its first character when `c` starts with
`'@'`, and it is the empty string exactly when `c` is "@".  A map is returned
whenever the stat carries an author and a total. -/
theorem normalizeCompany_at_most_one (Get : String → Except Error User)
    (stat : Option ContributorStats) (user : User)
    (hget : Get (GetLogin (GetAuthor stat)) = .ok user) :
    (populated stat = true → ∃ m, ParseCompanyStats [stat] Get = .ok (some m, none)) ∧
    ∀ m, ParseCompanyStats [stat] Get = .ok (some m, none) →
      ∃ name v, m = [(name, v)] ∧ v.Name = name ∧ companyOf Get stat = some name ∧
        (name = "" ↔ GetCompany user = "@") ∧
        (GetCompany user ≠ "@" → name ≠ "") ∧
        (∀ rest, GetCompany user = String.mk ('@' :: rest) → name = String.mk rest) := by
  refine ⟨fun hp => ⟨_, ParseCompanyStats_single Get stat user hget hp⟩, ?_⟩
  intro m hm
  have hp := (ParseCompanyStats_ok_inv Get [stat] m hm).2 stat (List.mem_cons_self _ _)
  have hm1 := ParseCompanyStats_ok_unique Get [stat] _ m
    (ParseCompanyStats_single Get stat user hget hp) hm
  refine ⟨normalizeCompany (GetCompany user),
    credit none (normalizeCompany (GetCompany user)) stat, hm1.symm, rfl,
    companyOf_of_lookup Get stat user hget, normalizeCompany_eq_empty_iff _, ?_, ?_⟩
  · intro hne h
    exact hne ((normalizeCompany_eq_empty_iff _).mp h)
  · intro rest h
    rw [h]
    exact normalizeCompany_at rest

/-- C15 on dave, who declares "@@acme" and is credited to "@acme", and on erin,
who declares "@" and is credited to the empty name. -/
theorem normalizeCompany_at_most_one_witness :
    (normalizeCompany "@@acme" = "@acme" ∧ normalizeCompany "@" = "" ∧
      normalizeCompany "" = "No company") ∧
    atGet (GetLogin (GetAuthor (mkStat "erin" 4))) = .ok { Company := some "@" } ∧
    ParseCompanyStats [mkStat "dave" 2] atGet =
      .ok (some [("@acme", ⟨"@acme", [⟨some "dave", none⟩], GoInt.ofInt 2⟩)], none) ∧
    ParseCompanyStats [mkStat "erin" 4] atGet =
      .ok (some [("", ⟨"", [⟨some "erin", none⟩], GoInt.ofInt 4⟩)], none) ∧
    ∃ name v, [("", (⟨"", [⟨some "erin", none⟩], GoInt.ofInt 4⟩ : CompanyStats))] = [(name, v)] ∧
      v.Name = name ∧ companyOf atGet (mkStat "erin" 4) = some name ∧
      (name = "" ↔ GetCompany { Company := some "@" } = "@") ∧
      (GetCompany { Company := some "@" } ≠ "@" → name ≠ "") ∧
      (∀ rest, GetCompany { Company := some "@" } = String.mk ('@' :: rest) →
        name = String.mk rest) :=
  ⟨⟨by decide, by decide, by decide⟩, by decide, by decide, by decide,
    (normalizeCompany_at_most_one atGet (mkStat "erin" 4) { Company := some "@" }
      (by decide)).2 _ (by decide)⟩

/-! ## Affiliation aggregator: how many contributors and organizations -/

theorem counts_mapSet_none (m : CompanyMap) (k : String) (v : CompanyStats)
    (h : mapGet m k = none) :
    (contributorCounts (mapSet m k v)).sum =
      (contributorCounts m).sum + v.Contributors.length := by
  induction m with
  | nil => simp [mapSet, contributorCounts]
  | cons e rest ih =>
    obtain ⟨k1, v1⟩ := e
    by_cases h0 : k1 = k
    · simp [mapGet, h0] at h
    · simp only [mapGet, h0, if_false] at h
      have ih1 := ih h
      simp only [contributorCounts] at ih1
      simp only [mapSet, h0, if_false, contributorCounts, List.map_cons, List.sum_cons]
      rw [ih1]
      omega

theorem counts_mapSet_some (m : CompanyMap) (k : String) (v v0 : CompanyStats)
    (h : mapGet m k = some v0) :
    (contributorCounts (mapSet m k v)).sum + v0.Contributors.length =
      (contributorCounts m).sum + v.Contributors.length := by
  induction m with
  | nil => simp [mapGet] at h
  | cons e rest ih =>
    obtain ⟨k1, v1⟩ := e
    by_cases h0 : k1 = k
    · simp only [mapGet, h0, if_true, Option.some.injEq] at h
      subst h
      simp only [mapSet, h0, if_true, contributorCounts, List.map_cons, List.sum_cons]
      omega
    · simp only [mapGet, h0, if_false] at h
      have ih1 := ih h
      simp only [contributorCounts] at ih1
      simp only [mapSet, h0, if_false, contributorCounts, List.map_cons, List.sum_cons]
      omega

/-- Number of contributors in all entries after the loop. -/
theorem aggregate_counts (Get : String → Except Error User)
    (stats : List (Option ContributorStats)) (m0 m : CompanyMap)
    (h : aggregate Get stats m0 = .ok (some m, none)) :
    (contributorCounts m).sum = (contributorCounts m0).sum + stats.length := by
  induction stats generalizing m0 with
  | nil =>
    simp only [aggregate, Except.ok.injEq, Prod.mk.injEq, Option.some.injEq, and_true] at h
    rw [← h]
    simp
  | cons s rest ih =>
    obtain ⟨hl, hp⟩ := aggregate_ok_inv Get (s :: rest) m0 m h s (List.mem_cons_self _ _)
    obtain ⟨user, hu⟩ := (lookupOk_iff Get s).mp hl
    simp only [aggregate, loopBody_of_populated Get m0 s user hu hp] at h
    rw [ih _ h, List.length_cons]
    cases hm : mapGet m0 (normalizeCompany (GetCompany user)) with
    | none =>
      rw [counts_mapSet_none m0 _ _ hm, credit_none]
      simp only [List.length_singleton]
      omega
    | some v0 =>
      have := counts_mapSet_some m0 (normalizeCompany (GetCompany user))
        (credit (some v0) (normalizeCompany (GetCompany user)) s) v0 hm
      rw [credit_some] at this ⊢
      simp only [List.length_append, List.length_singleton] at this
      omega

/-- C16: every entry of the map returned by `ParseCompanyStats` has a non-empty
`Contributors` list, and the lengths of these lists sum to the length of the
input; so the map has at most as many entries as the input has contributors,
and the empty input gives the empty map.  A map is returned whenever every stat
carries an author and a total. -/
theorem ParseCompanyStats_counts (Get : String → Except Error User)
    (stats : List (Option ContributorStats))
    (hl : ∀ s ∈ stats, lookupOk Get s = true) :
    ((∀ s ∈ stats, populated s = true) →
      ∃ m, ParseCompanyStats stats Get = .ok (some m, none)) ∧
    (∀ m, ParseCompanyStats stats Get = .ok (some m, none) →
      (∀ e ∈ m, e.2.Contributors ≠ []) ∧
      (∀ k v, mapGet m k = some v → v.Contributors ≠ []) ∧
      (contributorCounts m).sum = stats.length ∧
      m.length ≤ stats.length) ∧
    ParseCompanyStats [] Get = .ok (some [], none) := by
  refine ⟨fun hp => ParseCompanyStats_returns Get stats hp hl, ?_, rfl⟩
  intro m hret
  obtain ⟨_, hmem, hnone, hsome, _⟩ := ParseCompanyStats_shape Get stats m hret
  have hne : ∀ k v, mapGet m k = some v → v.Contributors ≠ [] := by
    intro k v hv
    by_cases hk : statsOf Get k stats = []
    · rw [hnone k hk] at hv
      cases hv
    · rw [hsome k hk] at hv
      cases hv
      simpa using hk
  have hall : ∀ e ∈ m, e.2.Contributors ≠ [] := by
    intro e he
    exact hne e.1 e.2 ((hmem e.1 e.2).mp he)
  have hsum : (contributorCounts m).sum = stats.length := by
    have := aggregate_counts Get stats [] m hret
    simpa [contributorCounts] using this
  refine ⟨hall, hne, hsum, ?_⟩
  have hle := List.length_le_sum_of_one_le (contributorCounts m) (by
    intro i hi
    simp only [contributorCounts, List.mem_map] at hi
    obtain ⟨e, he, rfl⟩ := hi
    exact List.length_pos.mpr (hall e he))
  rw [hsum] at hle
  simpa [contributorCounts] using hle

/-- C16 on alice, bob and carol: the two entries hold 2 and 1 contributors, 3
in all, as many as the input has stats. -/
theorem ParseCompanyStats_counts_witness :
    (∀ s ∈ sharedStats, lookupOk exampleGet s = true) ∧
    ParseCompanyStats sharedStats exampleGet = .ok (some sharedResult, none) ∧
    contributorCounts sharedResult = [2, 1] ∧
    (∀ e ∈ sharedResult, e.2.Contributors ≠ []) ∧
    (∀ k v, mapGet sharedResult k = some v → v.Contributors ≠ []) ∧
    (contributorCounts sharedResult).sum = sharedStats.length ∧
    sharedResult.length ≤ sharedStats.length :=
  ⟨by decide, by decide, by decide,
    (ParseCompanyStats_counts exampleGet sharedStats (by decide)).2.1 sharedResult (by decide)⟩

end GithubMetaAnalytics
